import Mathlib

/-!
Verification of the text-to-SSML synthesis engine of the voice-agent backend
(`app/utils/speech_service.py`, class `GoogleTTS_SSML`).

The Python source is shallowly embedded below.  Strings are modelled as
`List Char` internally (`String` at the API boundary, matching the source's
signatures).  Each `re.sub` pass of the source is modelled by a left-to-right
scanner (`scanRw`) driven by a matcher function that reproduces the semantics
of the concrete regular expression used by that pass, including word-boundary
lookarounds (via the previous-character argument) and the greedy /
backtracking behaviour of the specific pattern.

Modelling conventions (deviations from full Python semantics are local and
commented at the definition they concern):
* `str.lower`, `\d`, `\s`, `\w` are modelled on their ASCII behaviour;
  every non-ASCII character is treated as a word constituent (as in Python's
  Unicode `\w` for the Devanagari/Tamil/Telugu letters appearing here) and
  as neither a digit nor whitespace.
* Python `dict`s preserve insertion order; they are modelled as association
  lists in source order, and `{**a, **b}` with disjoint keys as `a ++ b`.
-/

set_option maxHeartbeats 1000000
set_option maxRecDepth 100000

namespace SpeechService

/-! ### Character classes and basic string machinery -/

/-- ASCII whitespace, the characters matched by Python's `\s` (ASCII part)
and stripped by `str.strip`. -/
def isSpaceC (c : Char) : Bool :=
  c = ' ' || c = '\t' || c = '\n' || c = '\r' || c = '\x0b' || c = '\x0c'

/-- Word constituent for `\b`: ASCII alphanumerics, underscore, and every
non-ASCII character (all non-ASCII text in this code base is Indic script,
which Python's Unicode `\w` treats as word characters). -/
def isWordC (c : Char) : Bool :=
  c.isAlphanum || c = '_' || 127 < c.toNat

/-- Word test on an optional previous/next character; `none` (string edge)
is not a word character, so a `\b` holds there. -/
def isWordO : Option Char → Bool
  | none => false
  | some c => isWordC c

/-- `hasPfx p s` holds iff `p` is a prefix of `s`. -/
def hasPfx : List Char → List Char → Bool
  | [], _ => true
  | _ :: _, [] => false
  | p :: ps, c :: cs => p == c && hasPfx ps cs

/-- Case-insensitive prefix test (ASCII case folding), modelling matching
under `re.IGNORECASE`. -/
def ciHasPfx : List Char → List Char → Bool
  | [], _ => true
  | _ :: _, [] => false
  | p :: ps, c :: cs => (p.toLower == c.toLower) && ciHasPfx ps cs

/-- `occursIn p s` holds iff `p` occurs as a contiguous substring of `s`;
this models Python's `p in s`. -/
def occursIn (p : List Char) : List Char → Bool
  | [] => hasPfx p []
  | c :: cs => hasPfx p (c :: cs) || occursIn p cs

/-- `hasSfx p s` holds iff `p` is a suffix of `s`. -/
def hasSfx (p s : List Char) : Bool := hasPfx p.reverse s.reverse

/-- Lower-case a character list (ASCII case folding), modelling `str.lower`
for the scripts in use here (Indic scripts are caseless). -/
def lowerL (l : List Char) : List Char := l.map Char.toLower

/-! ### A generic left-to-right rewrite scanner

`scanRw f fuel prev s` models a single `re.sub(pattern, repl, s)` pass:
at each position the matcher `f` is tried on the remaining input (`prev` is
the character just before the current position, for `\b` lookbehind).  On
`some (r, n)` the matcher consumed `n + 1` characters, which are replaced by
`r`, and scanning resumes after the match; on `none` one character is copied.
`fuel` bounds the recursion; it is always instantiated with the input length,
which suffices because every match consumes at least one character. -/
def scanRw (f : Option Char → List Char → Option (List Char × Nat)) :
    Nat → Option Char → List Char → List Char
  | 0, _, s => s
  | _ + 1, _, [] => []
  | fuel + 1, prev, c :: cs =>
    match f prev (c :: cs) with
    | some (r, n) => r ++ scanRw f fuel ((c :: cs).drop n).head? (cs.drop n)
    | none => c :: scanRw f fuel (some c) cs

/-- Run one rewrite pass over a whole string. -/
def runPass (f : Option Char → List Char → Option (List Char × Nat))
    (s : List Char) : List Char :=
  scanRw f s.length none s

/-- Take exactly `n` ASCII digits from the front of `s`. -/
def takeDigits : Nat → List Char → Option (List Char × List Char)
  | 0, s => some ([], s)
  | _ + 1, [] => none
  | n + 1, c :: cs =>
    if c.isDigit then (takeDigits n cs).map (fun p => (c :: p.1, p.2)) else none

/-- `str.split(sep)` for a one-character separator. -/
def splitOnChar (sep : Char) : List Char → List (List Char)
  | [] => [[]]
  | c :: cs =>
    if c = sep then [] :: splitOnChar sep cs
    else
      match splitOnChar sep cs with
      | [] => [[c]]
      | p :: ps => (c :: p) :: ps

/-- Decimal value of a digit list. -/
def digitsVal (l : List Char) : Nat :=
  l.foldl (fun a c => a * 10 + (c.toNat - 48)) 0

/-- Python `int(x)` on the strings reachable here: surrounding whitespace is
tolerated, the body must be one or more digits.  (Python `int` would raise on
other input; in this code such input never reaches `int`, see the pass
structure, and the model returns `none` there.) -/
def parseNatQ (l : List Char) : Option Nat :=
  let t := (((l.dropWhile isSpaceC).reverse.dropWhile isSpaceC).reverse)
  if t ≠ [] ∧ t.all Char.isDigit then some (digitsVal t) else none

/-- `str.strip()`. -/
def stripL (l : List Char) : List Char :=
  ((l.dropWhile isSpaceC).reverse.dropWhile isSpaceC).reverse

/-- Sentence-terminal characters of the segmentation pattern
`(?<=[.!?।])\s+`. -/
def isTermO : Option Char → Bool
  | none => false
  | some c => c = '.' || c = '!' || c = '?' || c = '।'

/-- `re.split(r'(?<=[.!?।])\s+', t)`: cut at every maximal whitespace run
that directly follows a sentence-terminal character.  `acc` holds the
current fragment reversed; `fuel` is instantiated with the input length. -/
def splitSent : Nat → Option Char → List Char → List Char → List (List Char)
  | 0, _, acc, s => [acc.reverse ++ s]
  | _ + 1, _, acc, [] => [acc.reverse]
  | fuel + 1, prev, acc, c :: cs =>
    if isTermO prev && isSpaceC c then
      acc.reverse :: splitSent fuel none [] ((c :: cs).dropWhile isSpaceC)
    else
      splitSent fuel (some c) (c :: acc) cs

/-- Sentence list of the source: split the stripped text, then drop empty
fragments (`[s for s in sentences if s]`). -/
def sentencePieces (t : List Char) : List (List Char) :=
  (splitSent t.length none [] t).filter (fun s => !s.isEmpty)

/-! ### Matchers for the rewrite passes of `interpret_numbers` -/

/-- `re.sub(r'Rs\.\s*(\d+)', r'rupees \1', s)`. -/
def mRsDot (_ : Option Char) (s : List Char) : Option (List Char × Nat) :=
  match s with
  | 'R' :: 's' :: '.' :: t =>
    let ws := t.takeWhile isSpaceC
    let ds := (t.dropWhile isSpaceC).takeWhile Char.isDigit
    if ds.isEmpty then none
    else some ("rupees ".data ++ ds, 3 + ws.length + ds.length - 1)
  | _ => none

/-- `re.sub(r'Rs\s*(\d+)', r'rupees \1', s)`. -/
def mRsBare (_ : Option Char) (s : List Char) : Option (List Char × Nat) :=
  match s with
  | 'R' :: 's' :: t =>
    let ws := t.takeWhile isSpaceC
    let ds := (t.dropWhile isSpaceC).takeWhile Char.isDigit
    if ds.isEmpty then none
    else some ("rupees ".data ++ ds, 2 + ws.length + ds.length - 1)
  | _ => none

/-- `re.sub(r'INR\s*(\d+)', r'rupees \1', s)`. -/
def mINR (_ : Option Char) (s : List Char) : Option (List Char × Nat) :=
  match s with
  | 'I' :: 'N' :: 'R' :: t =>
    let ws := t.takeWhile isSpaceC
    let ds := (t.dropWhile isSpaceC).takeWhile Char.isDigit
    if ds.isEmpty then none
    else some ("rupees ".data ++ ds, 3 + ws.length + ds.length - 1)
  | _ => none

/-- `re.sub(r'₹\s*(\d+)', r'rupees \1', s)`. -/
def mRupeeSign (_ : Option Char) (s : List Char) : Option (List Char × Nat) :=
  match s with
  | '₹' :: t =>
    let ws := t.takeWhile isSpaceC
    let ds := (t.dropWhile isSpaceC).takeWhile Char.isDigit
    if ds.isEmpty then none
    else some ("rupees ".data ++ ds, 1 + ws.length + ds.length - 1)
  | _ => none

/-- `re.sub(r'Dr\.\s+', r'Doctor ', s)`. -/
def mDr (_ : Option Char) (s : List Char) : Option (List Char × Nat) :=
  match s with
  | 'D' :: 'r' :: '.' :: t =>
    let ws := t.takeWhile isSpaceC
    if ws.isEmpty then none else some ("Doctor ".data, 3 + ws.length - 1)
  | _ => none

/-- One attempt of `re.match(r'\d{1,2}/\d{1,2}/\d{2,4}', ...)` at fixed
segment lengths, with the trailing `\b` of the full-pass pattern; returns
the matched length. -/
def dateTry (l1 l2 l3 : Nat) (s : List Char) : Option Nat :=
  match takeDigits l1 s with
  | some (_, '/' :: r1) =>
    match takeDigits l2 r1 with
    | some (_, '/' :: r2) =>
      match takeDigits l3 r2 with
      | some (_, r3) =>
        if isWordO r3.head? then none else some (l1 + 1 + l2 + 1 + l3)
      | none => none
    | _ => none
  | _ => none

/-- Backtracking order of `\d{1,2}/\d{1,2}/\d{2,4}` (greedy, rightmost
alternative retried first). -/
def dateCombos : List (Nat × Nat × Nat) :=
  [(2, 2, 4), (2, 2, 3), (2, 2, 2), (2, 1, 4), (2, 1, 3), (2, 1, 2),
   (1, 2, 4), (1, 2, 3), (1, 2, 2), (1, 1, 4), (1, 1, 3), (1, 1, 2)]

/-- Match length of `\b\d{1,2}/\d{1,2}/\d{2,4}\b` at the current position
(the leading `\b` is checked by the caller). -/
def dateMatchLen (s : List Char) : Option Nat :=
  dateCombos.foldr (fun c acc => (dateTry c.1 c.2.1 c.2.2 s).orElse (fun _ => acc)) none

/-- Whether `re.match(r'\d{1,2}/\d{1,2}/\d{2,4}', num)` succeeds (prefix
match, no boundary requirements). -/
def dateReMatch (s : List Char) : Bool :=
  let core (l1 l2 : Nat) : Bool :=
    match takeDigits l1 s with
    | some (_, '/' :: r1) =>
      match takeDigits l2 r1 with
      | some (_, '/' :: r2) => (takeDigits 2 r2).isSome
      | _ => false
    | _ => false
  core 2 2 || core 2 1 || core 1 2 || core 1 1

/-- Whether `re.match(r'\d{1,2}:\d{2}', num)` succeeds. -/
def timeReMatch (s : List Char) : Bool :=
  let core (l1 : Nat) : Bool :=
    match takeDigits l1 s with
    | some (_, ':' :: r1) => (takeDigits 2 r1).isSome
    | _ => false
  core 2 || core 1

/-- The literal alternation `(AM|PM|am|pm)`, in source order. -/
def ampmLit : List Char → Option (List Char × List Char)
  | 'A' :: 'M' :: r => some (['A', 'M'], r)
  | 'P' :: 'M' :: r => some (['P', 'M'], r)
  | 'a' :: 'm' :: r => some (['a', 'm'], r)
  | 'p' :: 'm' :: r => some (['p', 'm'], r)
  | _ => none

/-- Whether `\d{1,2}:\d{2}\s*(AM|PM|am|pm)` matches at the current position
(no boundaries; used both by `re.match` on a token and by `re.search`
over the sentence). -/
def ampmCore (l1 : Nat) (s : List Char) : Bool :=
  match takeDigits l1 s with
  | some (_, ':' :: r1) =>
    match takeDigits 2 r1 with
    | some (_, r2) => (ampmLit (r2.dropWhile isSpaceC)).isSome
    | none => false
  | _ => false

/-- `re.match(r'\d{1,2}:\d{2}\s*(AM|PM|am|pm)', num)`. -/
def ampmReMatch (s : List Char) : Bool := ampmCore 2 s || ampmCore 1 s

/-- Positions scanner for `re.search` of a pattern with no lookbehind. -/
def anyAt (p : List Char → Bool) : List Char → Bool
  | [] => p []
  | c :: cs => p (c :: cs) || anyAt p cs

/-- `re.search(r'\d{1,2}:\d{2}\s*(AM|PM|am|pm)', sentence)`. -/
def searchTimeAmPm (s : List Char) : Bool :=
  anyAt (fun t => ampmCore 2 t || ampmCore 1 t) s

/-- Positions scanner for `re.search` of a pattern whose head needs `\b`. -/
def anyAtB (p : Option Char → List Char → Bool) :
    Option Char → List Char → Bool
  | prev, [] => p prev []
  | prev, c :: cs => p prev (c :: cs) || anyAtB p (some c) cs

/-- The alternation `(room|ward|chamber|cabin)`, in source order. -/
def roomWordAt (s : List Char) : Option (List Char) :=
  if hasPfx "room".data s then some (s.drop 4)
  else if hasPfx "ward".data s then some (s.drop 4)
  else if hasPfx "chamber".data s then some (s.drop 7)
  else if hasPfx "cabin".data s then some (s.drop 5)
  else none

/-- One position of `re.search(r'\b(room|ward|chamber|cabin)\s+\d+\b', s)`. -/
def roomAt (prev : Option Char) (s : List Char) : Bool :=
  if isWordO prev then false
  else
    match roomWordAt s with
    | some rest =>
      let ws := rest.takeWhile isSpaceC
      let rest2 := rest.dropWhile isSpaceC
      let ds := rest2.takeWhile Char.isDigit
      !ws.isEmpty && !ds.isEmpty && !isWordO (rest2.dropWhile Char.isDigit).head?
    | none => false

/-- `re.search(r'\b(room|ward|chamber|cabin)\s+\d+\b', s)`. -/
def searchRoom (s : List Char) : Bool := anyAtB roomAt none s

/-- One position of `re.search(r'(\d{2})\s*(AM|PM|am|pm)', period)`. -/
def minPerAt (s : List Char) : Option (List Char × List Char) :=
  match takeDigits 2 s with
  | some (mm, r) =>
    match ampmLit (r.dropWhile isSpaceC) with
    | some (lit, _) => some (mm, lit)
    | none => none
  | none => none

/-- `re.search(r'(\d{2})\s*(AM|PM|am|pm)', period)`, returning the two
captured groups of the leftmost match. -/
def searchMinPeriod : List Char → Option (List Char × List Char)
  | [] => none
  | c :: cs => (minPerAt (c :: cs)).orElse (fun _ => searchMinPeriod cs)

/-! ### The token classifier `repl` of `interpret_numbers` -/

/-- `<say-as interpret-as="KIND">MID</say-as>`. -/
def sayAsTag (kind mid : List Char) : List Char :=
  "<say-as interpret-as=\"".data ++ kind ++ "\">".data ++ mid ++ "</say-as>".data

/-- `<say-as interpret-as="date" format="dmy">MID</say-as>`. -/
def dateTag (mid : List Char) : List Char :=
  "<say-as interpret-as=\"date\" format=\"dmy\">".data ++ mid ++ "</say-as>".data

/-- `<say-as interpret-as="time" format="hms24">MID</say-as>`. -/
def timeTag (mid : List Char) : List Char :=
  "<say-as interpret-as=\"time\" format=\"hms24\">".data ++ mid ++ "</say-as>".data

/-- The nested `repl(match)` closure of `interpret_numbers`.  `ctx` is the
value of the local variable `sentence` at the time the enclosing `re.sub`
pass runs (the passes rebind `sentence`, so each pass searches the partially
rewritten text).  Paths on which the source would raise (`int()` on a
non-numeric string, tuple unpacking of a `split` with the wrong arity) are
unreachable from the pass structure and modelled as returning the token
unchanged. -/
def replFn (ctx num : List Char) : List Char :=
  if num.length == 10 && num.all Char.isDigit then
    sayAsTag "telephone".data num
  else if num.length ≤ 3 && num.all Char.isDigit then
    sayAsTag "cardinal".data num
  else if dateReMatch num then
    match splitOnChar '/' num with
    | [d, m, y] =>
      dateTag (d ++ '/' :: m ++ '/' :: (if y.length == 2 then '2' :: '0' :: y else y))
    | _ => dateTag num
  else if timeReMatch num then
    match splitOnChar ':' num with
    | [h, m] =>
      match parseNatQ m with
      | some 0 => h ++ " o'clock".data
      | some 30 => h ++ " thirty".data
      | some _ => timeTag (h ++ ':' :: m)
      | none => num
    | _ => num
  else if searchTimeAmPm ctx then
    if ampmReMatch num then
      match splitOnChar ':' num with
      | [tp, per] =>
        match searchMinPeriod per with
        | some (mm, lit) =>
          if parseNatQ mm == some 0 then tp ++ ' ' :: lowerL lit
          else if parseNatQ mm == some 30 then tp ++ " thirty ".data ++ lowerL lit
          else tp ++ ' ' :: (mm ++ ' ' :: lowerL lit)
        | none => num
      | _ => num
    else num
  else if searchRoom (lowerL ctx) then
    sayAsTag "characters".data num
  else if num.length ≤ 4 && num.all Char.isDigit then
    if num = "500".data then "five hundred".data
    else if num = "200".data then "two hundred".data
    else if num = "100".data then "one hundred".data
    else if num = "1000".data then "one thousand".data
    else sayAsTag "cardinal".data num
  else
    sayAsTag "cardinal".data num

/-- `re.sub(r'\b\d+\b', repl, s)`: a maximal digit run bounded by non-word
characters (or string edges) on both sides. -/
def mNum (ctx : List Char) (prev : Option Char) (s : List Char) :
    Option (List Char × Nat) :=
  if isWordO prev then none
  else
    match s with
    | [] => none
    | c :: _ =>
      if c.isDigit then
        let ds := s.takeWhile Char.isDigit
        if isWordO (s.dropWhile Char.isDigit).head? then none
        else some (replFn ctx ds, ds.length - 1)
      else none

/-- `re.sub(r'\b\d{1,2}/\d{1,2}/\d{2,4}\b', repl, s)`. -/
def mDate (ctx : List Char) (prev : Option Char) (s : List Char) :
    Option (List Char × Nat) :=
  if isWordO prev then none
  else
    match dateMatchLen s with
    | some len => some (replFn ctx (s.take len), len - 1)
    | none => none

/-- Match length of `\d{1,2}:\d{2}\s*(AM|PM|am|pm)\b` at the current
position, trying the two-digit hour first. -/
def ampmTry (l1 : Nat) (s : List Char) : Option Nat :=
  match takeDigits l1 s with
  | some (_, ':' :: r1) =>
    match takeDigits 2 r1 with
    | some (_, r2) =>
      let ws := r2.takeWhile isSpaceC
      match ampmLit (r2.dropWhile isSpaceC) with
      | some (_, r4) =>
        if isWordO r4.head? then none else some (l1 + 1 + 2 + ws.length + 2)
      | none => none
    | none => none
  | _ => none

/-- `re.sub(r'\b\d{1,2}:\d{2}\s*(AM|PM|am|pm)\b', repl, s)`. -/
def mAmPm (ctx : List Char) (prev : Option Char) (s : List Char) :
    Option (List Char × Nat) :=
  if isWordO prev then none
  else
    match (ampmTry 2 s).orElse (fun _ => ampmTry 1 s) with
    | some len => some (replFn ctx (s.take len), len - 1)
    | none => none

/-- Match length of `\d{1,2}:\d{2}\b` at the current position. -/
def hhmmTry (l1 : Nat) (s : List Char) : Option Nat :=
  match takeDigits l1 s with
  | some (_, ':' :: r1) =>
    match takeDigits 2 r1 with
    | some (_, r2) => if isWordO r2.head? then none else some (l1 + 3)
    | none => none
  | _ => none

/-- `re.sub(r'\b\d{1,2}:\d{2}\b', repl, s)`. -/
def mHHMM (ctx : List Char) (prev : Option Char) (s : List Char) :
    Option (List Char × Nat) :=
  if isWordO prev then none
  else
    match (hhmmTry 2 s).orElse (fun _ => hhmmTry 1 s) with
    | some len => some (replFn ctx (s.take len), len - 1)
    | none => none

/-- `re.sub(r'3(:| )00\s*(PM|pm)', 'three PM', s)`. -/
def mThreePM (_ : Option Char) (s : List Char) : Option (List Char × Nat) :=
  match s with
  | '3' :: d :: '0' :: '0' :: t =>
    if d = ':' || d = ' ' then
      let ws := t.takeWhile isSpaceC
      match t.dropWhile isSpaceC with
      | 'P' :: 'M' :: _ => some ("three PM".data, 4 + ws.length + 2 - 1)
      | 'p' :: 'm' :: _ => some ("three PM".data, 4 + ws.length + 2 - 1)
      | _ => none
    else none
  | _ => none

/-- `re.sub(r'2(:| )30\s*(PM|pm)', 'two thirty PM', s)`. -/
def mTwoThirtyPM (_ : Option Char) (s : List Char) : Option (List Char × Nat) :=
  match s with
  | '2' :: d :: '3' :: '0' :: t =>
    if d = ':' || d = ' ' then
      let ws := t.takeWhile isSpaceC
      match t.dropWhile isSpaceC with
      | 'P' :: 'M' :: _ => some ("two thirty PM".data, 4 + ws.length + 2 - 1)
      | 'p' :: 'm' :: _ => some ("two thirty PM".data, 4 + ws.length + 2 - 1)
      | _ => none
    else none
  | _ => none

/-- `GoogleTTS_SSML.interpret_numbers`: the eleven sequential rewrite passes
in source order.  Each `repl`-driven pass closes over the current value of
`sentence`, i.e. the output of the previous pass. -/
def interpret_numbers (s : String) : String :=
  let s1 := runPass mRsDot s.data
  let s2 := runPass mRsBare s1
  let s3 := runPass mINR s2
  let s4 := runPass mRupeeSign s3
  let s5 := runPass mDr s4
  let s6 := runPass (mNum s5) s5
  let s7 := runPass (mDate s6) s6
  let s8 := runPass (mAmPm s7) s7
  let s9 := runPass (mHHMM s8) s8
  let s10 := runPass mThreePM s9
  let s11 := runPass mTwoThirtyPM s10
  String.mk s11

/-! ### Pronunciation dictionaries -/

/-- One entry of a pronunciation dictionary:
`term: {"pronunciation": ..., "alphabet": ...}`. -/
structure PronEntry where
  word : String
  pronunciation : String
  alphabet : String
deriving DecidableEq

/-- `PRONUNCIATION_DICTIONARY`, in source (insertion) order. -/
def PRONUNCIATION_DICTIONARY : List PronEntry :=
  [⟨"Yashodha", "jəˈʃoːd̪ʰaː", "ipa"⟩,
   ⟨"Yashoda", "jəˈʃoːd̪ʰaː", "ipa"⟩,
   ⟨"YASHODA", "jəˈʃoːd̪ʰaː", "ipa"⟩,
   ⟨"yashodha", "jəˈʃoːd̪ʰaː", "ipa"⟩,
   ⟨"yashoda", "jəˈʃoːd̪ʰaː", "ipa"⟩,
   ⟨"pneumonia", "nuːˈmoʊniə", "ipa"⟩,
   ⟨"myocardial infarction", "maɪəˈkɑɹdiəl ɪnˈfɑɹkʃən", "ipa"⟩,
   ⟨"fever", "ˈfiːvər", "ipa"⟩,
   ⟨"headache", "ˈhɛdeɪk", "ipa"⟩,
   ⟨"Chennai", "ˈtʃɛnaj", "ipa"⟩,
   ⟨"Delhi", "ˈd̪ɛli", "ipa"⟩,
   ⟨"Tamil", "ˈt̪ɑːmɪl", "ipa"⟩,
   ⟨"Tamil Nadu", "ˈt̪ɑːmɪl ˈnɑːɖu", "ipa"⟩,
   ⟨"Hindi", "ˈhɪndi", "ipa"⟩,
   ⟨"SQL", "ˈɛs kjuː ˈɛl", "ipa"⟩,
   ⟨"GUID", "ˈɡuːɪd", "ipa"⟩,
   ⟨"PostgreSQL", "ˈpoʊstɡrɛs ˈɛs kjuː ˈɛl", "ipa"⟩]

/-- `TAMIL_PRONUNCIATIONS`. -/
def TAMIL_PRONUNCIATIONS : List PronEntry :=
  [⟨"காய்ச்சல்", "kaːjtːʃal", "ipa"⟩,
   ⟨"தலைவலி", "t̪alaɪvali", "ipa"⟩,
   ⟨"மருத்துவமனைக்கு", "maɾuθθuvamaneːkku", "ipa"⟩,
   ⟨"யசோதா", "jəˈʃoːd̪ʰaː", "ipa"⟩]

/-- `HINDI_PRONUNCIATIONS`. -/
def HINDI_PRONUNCIATIONS : List PronEntry :=
  [⟨"बुखार", "buˈkʰaːr", "ipa"⟩,
   ⟨"सिरदर्द", "sirˈdərd", "ipa"⟩,
   ⟨"यशोधा", "jəˈʃoːd̪ʰaː", "ipa"⟩]

/-- `all_pronunciations = {**PRONUNCIATION_DICTIONARY, **lang_specific_dict}`;
the key sets are disjoint, so the merge is concatenation in insertion
order. -/
def allPron (lang : String) : List PronEntry :=
  PRONUNCIATION_DICTIONARY ++
    (if lang == "hindi" then HINDI_PRONUNCIATIONS
     else if lang == "tamil" then TAMIL_PRONUNCIATIONS else [])

/-- `<phoneme alphabet="A" ph="P">WORD</phoneme>`. -/
def phonemeTag (e : PronEntry) : List Char :=
  "<phoneme alphabet=\"".data ++ e.alphabet.data ++ "\" ph=\"".data ++
    e.pronunciation.data ++ "\">".data ++ e.word.data ++ "</phoneme>".data

/-- Matcher of `re.compile(r'\b' + re.escape(word) + r'\b', re.IGNORECASE)`:
every dictionary term begins and ends with a word character, so both `\b`
amount to a non-word (or edge) neighbour. -/
def pronMatcher (e : PronEntry) (prev : Option Char) (s : List Char) :
    Option (List Char × Nat) :=
  if isWordO prev then none
  else if ciHasPfx e.word.data s && !isWordO (s.drop e.word.data.length).head? then
    some (phonemeTag e, e.word.data.length - 1)
  else none

/-- One iteration of the pronunciation loop of `text_to_ssml_with_emotion`:
skip the Yashoda family for English, then substitute only when the term
occurs (case-sensitively) in the current text and has a nonempty phoneme. -/
def pronStep (lang : String) (s : List Char) (e : PronEntry) : List Char :=
  if lang == "english" &&
      (lowerL e.word.data == "yashoda".data || lowerL e.word.data == "yashodha".data ||
        lowerL e.word.data == "यशोधा".data) then s
  else if occursIn e.word.data s then
    if e.pronunciation == "" then s else runPass (pronMatcher e) s
  else s

/-- The whole pronunciation-substitution loop over the merged dictionary. -/
def applyPronunciations (lang : String) (s : String) : String :=
  String.mk ((allPron lang).foldl (pronStep lang) s.data)

/-! ### Emotion/tone classifier -/

/-- Urgent keyword set of `detect_emotion`. -/
def urgent_keywords : List String :=
  ["emergency", "critical", "urgent", "severe", "immediately", "call 108",
   "ambulance", "chest pain", "breathing difficulty", "unconscious",
   "bleeding", "accident",
   "आपातकालीन", "तत्काल", "आपात", "आपातकाल", "छाती में दर्द",
   "सांस लेने में तकलीफ",
   "அவசர", "மார்பு வலி", "மூச்சுத்திணறல்",
   "అత్యవసర", "తీవ్రమైన", "తక్షణ", "గుండె నొప్పి",
   "శ్వాస తీసుకోవడంలో ఇబ్బంది"]

/-- Empathetic keyword set of `detect_emotion`. -/
def empathetic_keywords : List String :=
  ["pain", "suffering", "worried", "concerned", "anxious", "afraid", "scared",
   "baby", "child", "pregnant", "family",
   "दर्द", "परेशान", "चिंतित", "बच्चा", "शिशु", "गर्भवती", "परिवार",
   "வலி", "கவலை", "குழந்தை", "குடும்பம்", "கர்ப்பிணி",
   "నొప్పి", "బాధ", "ఆందోళన", "చింతిత", "బిడ్డ", "గర్భిణీ", "కుటుంబం"]

/-- Informative keyword set of `detect_emotion`. -/
def informative_keywords : List String :=
  ["appointment", "schedule", "doctor", "available", "location", "directions",
   "fee", "timing", "consultation", "procedure", "test", "results",
   "registration",
   "अपॉइंटमेंट", "डॉक्टर", "उपलब्ध", "स्थान", "शुल्क", "समय", "परामर्श",
   "प्रक्रिया", "परीक्षण",
   "பதிவு", "மருத்துவர்", "இடம்", "கட்டணம்", "நேரம்",
   "అపాయింట్మెంట్", "డాక్టర్", "అందుబాటులో", "ప్రదేశం", "రుసుము",
   "సమయం", "సంప్రదింపు", "పరీక్ష"]

/-- Greeting keyword set of `detect_emotion`. -/
def greeting_keywords : List String :=
  ["hello", "hi", "greetings", "welcome", "good morning", "good afternoon",
   "नमस्ते", "नमस्कार", "स्वागत", "शुभ",
   "வணக்கம்", "நல்வரவு",
   "నమస్కారం", "హలో", "స్వాగతం", "శుభోదయం"]

/-- The per-category loop `for word in kws: if word.lower() in sentence_lower`. -/
def anyKw : List String → List Char → Bool
  | [], _ => false
  | w :: ws, sl => occursIn (lowerL w.data) sl || anyKw ws sl

/-- `GoogleTTS_SSML.detect_emotion`. -/
def detect_emotion (s : String) : String :=
  let sl := lowerL s.data
  if anyKw urgent_keywords sl then "urgent"
  else if anyKw empathetic_keywords sl then "empathetic"
  else if anyKw informative_keywords sl then "informative"
  else if anyKw greeting_keywords sl then "greeting"
  else "professional"

/-! ### Prosody templates and document assembly -/

/-- The tone-indexed SSML templates of `text_to_ssml_with_emotion`. -/
def prosodyWrap (tone : String) (ms : List Char) : List Char :=
  if tone == "urgent" then
    "<emphasis level=\"strong\"><prosody rate=\"110%\" pitch=\"+5%\" volume=\"loud\">".data ++
      (ms ++ "</prosody></emphasis>".data)
  else if tone == "empathetic" then
    "<prosody rate=\"90%\" pitch=\"-5%\" volume=\"medium\">".data ++
      (ms ++ "</prosody>".data)
  else if tone == "informative" then
    "<prosody rate=\"95%\" pitch=\"0%\" volume=\"medium\">".data ++
      (ms ++ "</prosody>".data)
  else if tone == "greeting" then
    "<prosody rate=\"medium\" pitch=\"5%\" volume=\"medium\">".data ++
      (ms ++ "</prosody>".data)
  else
    "<prosody rate=\"medium\" pitch=\"0%\">".data ++ (ms ++ "</prosody>".data)

/-- `break_tag.join(ssml_sentences)`. -/
def joinWith (sep : List Char) : List (List Char) → List Char
  | [] => []
  | [x] => x
  | x :: y :: t => x ++ (sep ++ joinWith sep (y :: t))

/-- The language-code table with its `.get(..., 'en-IN')` default. -/
def langCode (lang : String) : String :=
  if lang == "english" then "en-IN"
  else if lang == "hindi" then "hi-IN"
  else if lang == "tamil" then "ta-IN"
  else if lang == "telugu" then "te-IN"
  else "en-IN"

/-- The literal `'<speak>'` tested by the escape hatch. -/
def spk : List Char := "<speak>".data

/-- Per-sentence processing: numbers, then pronunciations on the rewritten
text, then the prosody template chosen from the tone of the original
sentence. -/
def processSentence (lang : String) (sn : List Char) : List Char :=
  prosodyWrap (detect_emotion (String.mk sn))
    ((applyPronunciations lang (interpret_numbers (String.mk sn))).data)

/-- `GoogleTTS_SSML.text_to_ssml_with_emotion(text, break_time)`.  `lang`
models the instance state `self.current_language`. -/
def text_to_ssml_with_emotion (lang : String) (text : String)
    (break_time : String) : String :=
  if occursIn spk text.data then
    if hasPfx spk text.data then text else "<speak>" ++ text ++ "</speak>"
  else
    let sentences := sentencePieces (stripL text.data)
    let body :=
      joinWith ("<break time=\"".data ++ break_time.data ++ "\"/>".data)
        (sentences.map (processSentence lang))
    String.mk ("<speak xml:lang=\"".data ++ (langCode lang).data ++
      "\">\n  ".data ++ body ++ "\n</speak>".data)

/-- `GoogleTTS_SSML.text_to_ssml(text, break_time)`: the legacy entry point,
which delegates unchanged. -/
def text_to_ssml (lang : String) (text : String) (break_time : String) : String :=
  text_to_ssml_with_emotion lang text break_time

/-- Default value of the `break_time` parameter of `text_to_ssml`. -/
def text_to_ssml_default_break : String := "200ms"

/-- Default value of the `break_time` parameter of
`text_to_ssml_with_emotion`. -/
def text_to_ssml_with_emotion_default_break : String := "350ms"

/-! ### Observers used by the specification statements -/

/-- Depth-scanning detector for a `<phoneme` opening inside the span of an
enclosing phoneme tag (i.e. nested phoneme markup). -/
def nestedPhonemeAux : List Char → Nat → Bool
  | [], _ => false
  | c :: cs, d =>
    if hasPfx "<phoneme".data (c :: cs) then decide (0 < d) || nestedPhonemeAux cs (d + 1)
    else if hasPfx "</phoneme>".data (c :: cs) then nestedPhonemeAux cs (d - 1)
    else nestedPhonemeAux cs d

/-- A string contains a phoneme tag nested inside another phoneme tag. -/
def nestedPhoneme (s : List Char) : Bool := nestedPhonemeAux s 0

/-- The string is exactly one outer `<speak>...</speak>` wrapper: it starts
with `<speak>`, ends with `</speak>`, and the closing tag of the outer
wrapper occurs nowhere before the end. -/
def singleOuterSpeak (s : String) : Bool :=
  hasPfx spk s.data && hasSfx "</speak>".data s.data &&
    !occursIn "</speak>".data ((s.data.drop 7).take (s.data.length - 15))

/-! ### Non-creation machinery for the literal `<speak>`

`safeRepl r` is a sufficient condition on a replacement string `r` under
which a rewrite pass cannot create a new occurrence of `<speak>`: `r` does
not contain `<speak>`, no nonempty suffix of `<speak>` is a prefix of `r`
or extends `r`, and no nonempty proper prefix of `<speak>` is a suffix of
`r`. -/

/-- The six proper splits of `<speak>` into nonempty halves. -/
def spkSplits : List (List Char × List Char) :=
  [("<".data, "speak>".data), ("<s".data, "peak>".data), ("<sp".data, "eak>".data),
   ("<spe".data, "ak>".data), ("<spea".data, "k>".data), ("<speak".data, ">".data)]

/-- All nonempty suffixes of `<speak>`. -/
def spkSufs : List (List Char) := spk :: spkSplits.map (fun pr => pr.2)

/-- Replacement strings that can never take part in a new `<speak>`. -/
def safeRepl (r : List Char) : Bool :=
  !occursIn spk r &&
  spkSufs.all (fun q => !hasPfx q r && !hasPfx r q) &&
  spkSplits.all (fun pr => !hasSfx pr.1 r)

/-- An occurrence of `<speak>` straddling the boundary of `a ++ b`. -/
def spkStraddle (a b : List Char) : Bool :=
  spkSplits.any (fun pr => hasSfx pr.1 a && hasPfx pr.2 b)

/-- Every replacement a matcher can emit is safe. -/
def SafeF (f : Option Char → List Char → Option (List Char × Nat)) : Prop :=
  ∀ prev s r n, f prev s = some (r, n) → safeRepl r = true

/-- The character alphabet of the tokens the four `repl`-driven passes can
hand to `replFn`: digits, `/`, `:`, whitespace, and the `AM`/`PM` letters. -/
def allowedTok (c : Char) : Bool :=
  c.isDigit || c = '/' || c = ':' || isSpaceC c ||
    c = 'A' || c = 'M' || c = 'P' || c = 'a' || c = 'm' || c = 'p'

/-- Character-shape invariant of the tokens handed to `replFn` by the four
`repl`-driven passes: nonempty, starting with a digit, drawn from the token
alphabet, and ending with a digit or `m`/`M`. -/
def tokenOk (num : List Char) : Bool :=
  !num.isEmpty &&
  (match num.head? with | some h => h.isDigit | none => false) &&
  num.all allowedTok &&
  (match num.getLast? with | some z => z.isDigit || z = 'm' || z = 'M' | none => false)

/-! ## Basic lemmas about prefixes and substring occurrence -/

theorem hasPfx_refl (p : List Char) : hasPfx p p = true := by
  induction p with
  | nil => rfl
  | cons c cs ih => simp [hasPfx, ih]

theorem hasPfx_append_ext (p s t : List Char) (h : hasPfx p s = true) :
    hasPfx p (s ++ t) = true := by
  induction p generalizing s with
  | nil => rfl
  | cons q qs ih =>
    cases s with
    | nil => simp [hasPfx] at h
    | cons c cs =>
      simp [hasPfx] at h ⊢
      exact ⟨h.1, ih cs h.2⟩

theorem hasPfx_self_append (p t : List Char) : hasPfx p (p ++ t) = true :=
  hasPfx_append_ext p p t (hasPfx_refl p)

theorem occursIn_of_hasPfx (p s : List Char) (h : hasPfx p s = true) :
    occursIn p s = true := by
  cases s with
  | nil => exact h
  | cons c cs => simp [occursIn, h]

theorem occursIn_nil_pat (s : List Char) : occursIn [] s = true := by
  cases s <;> simp [occursIn, hasPfx]

theorem occursIn_append_r (p a b : List Char) (h : occursIn p b = true) :
    occursIn p (a ++ b) = true := by
  induction a with
  | nil => exact h
  | cons c cs ih => simp [occursIn]; right; exact ih

theorem occursIn_append_l (p a b : List Char) (h : occursIn p a = true) :
    occursIn p (a ++ b) = true := by
  induction a with
  | nil =>
    cases p with
    | nil => exact occursIn_nil_pat b
    | cons q qs => simp [occursIn, hasPfx] at h
  | cons c cs ih =>
    simp only [occursIn, Bool.or_eq_true] at h
    rcases h with h | h
    · exact occursIn_of_hasPfx _ _ (hasPfx_append_ext _ _ _ h)
    · simp only [List.cons_append, occursIn, Bool.or_eq_true]
      right
      exact ih h

theorem str_data_append (a b : String) : (a ++ b).data = a.data ++ b.data := by
  cases a; cases b; rfl

/-! ## C9: the legacy entry point delegates unchanged -/

/-- C9: for every language state, text and break duration, the legacy
`text_to_ssml` returns exactly the string `text_to_ssml_with_emotion`
returns; the two entry points differ only in their default break duration,
`200ms` for the former and `350ms` for the latter. -/
theorem c9_text_to_ssml_delegates :
    (∀ (lang t b : String),
      text_to_ssml lang t b = text_to_ssml_with_emotion lang t b) ∧
    text_to_ssml_default_break = "200ms" ∧
    text_to_ssml_with_emotion_default_break = "350ms" :=
  ⟨fun _ _ _ => rfl, rfl, rfl⟩

/-! ## C3–C6: the number-normalization rules shadowed by earlier passes -/

/-- C3 (code bug): the standalone token `500` is emitted as a generic
cardinal `say-as` tag, not as the literal words "five hundred": the
three-digit branch of `repl` captures it before the literal-override branch
can run.  Only the four-digit override (`1000` → "one thousand") is
reachable. -/
theorem c3_500_is_generic_cardinal :
    interpret_numbers "The fee is 500." =
      "The fee is <say-as interpret-as=\"cardinal\">500</say-as>." ∧
    interpret_numbers "Pay 1000 now." = "Pay one thousand now." := by
  constructor <;> decide

/-- C4 (code bug): a numeral following "Room" is emitted as a generic
cardinal `say-as` tag, not as a character-spelled span: the three-digit
branch of `repl` runs before the room-number branch. -/
theorem c4_room_204_is_generic_cardinal :
    interpret_numbers "Room 204 is ready." =
      "Room <say-as interpret-as=\"cardinal\">204</say-as> is ready." := by
  decide

/-- C5 (code bug): a `dd/mm/yyyy` token never becomes a date span: the
generic `\b\d+\b` pass rewrites its digit groups first, so the date pass
finds nothing to match. -/
theorem c5_date_never_tagged :
    interpret_numbers "The date is 01/02/1960." =
      "The date is <say-as interpret-as=\"cardinal\">01</say-as>/<say-as interpret-as=\"cardinal\">02</say-as>/<say-as interpret-as=\"cardinal\">1960</say-as>." ∧
    occursIn "interpret-as=\"date\"".data
      (interpret_numbers "The date is 01/02/1960.").data = false := by
  constructor <;> decide

/-- C6 (code bug): a sentence containing `3:00 PM` does not yield
"three PM": the generic digit pass splits the time apart before the final
literal-override pass can see it. -/
theorem c6_three_pm_override_dead :
    interpret_numbers "Your appointment is at 3:00 PM." =
      "Your appointment is at <say-as interpret-as=\"cardinal\">3</say-as>:<say-as interpret-as=\"cardinal\">00</say-as> PM." ∧
    occursIn "three PM".data
      (interpret_numbers "Your appointment is at 3:00 PM.").data = false := by
  constructor <;> decide

/-! ## C7: emotion classification priority -/

theorem anyKw_iff (kws : List String) (sl : List Char) :
    anyKw kws sl = true ↔ ∃ w ∈ kws, occursIn (lowerL w.data) sl = true := by
  induction kws with
  | nil => simp [anyKw]
  | cons w ws ih =>
    simp only [anyKw, Bool.or_eq_true, ih, List.mem_cons]
    constructor
    · rintro (h | ⟨v, hv, ho⟩)
      · exact ⟨w, Or.inl rfl, h⟩
      · exact ⟨v, Or.inr hv, ho⟩
    · rintro ⟨v, hv | hv, ho⟩
      · exact Or.inl (hv ▸ ho)
      · exact Or.inr ⟨v, hv, ho⟩

/-- C7: `detect_emotion` lower-cases the sentence and tests the keyword
sets in the fixed priority order Urgent, Empathetic, Informative, Greeting
for a substring occurrence, falling back to "professional"; in particular a
sentence containing both an Urgent keyword ("emergency") and an Informative
keyword ("appointment") classifies as urgent. -/
theorem c7_detect_emotion_priority :
    (∀ s : String,
      ((∃ w ∈ urgent_keywords, occursIn (lowerL w.data) (lowerL s.data) = true) →
        detect_emotion s = "urgent") ∧
      ((¬∃ w ∈ urgent_keywords, occursIn (lowerL w.data) (lowerL s.data) = true) →
        (∃ w ∈ empathetic_keywords, occursIn (lowerL w.data) (lowerL s.data) = true) →
        detect_emotion s = "empathetic") ∧
      ((¬∃ w ∈ urgent_keywords, occursIn (lowerL w.data) (lowerL s.data) = true) →
        (¬∃ w ∈ empathetic_keywords, occursIn (lowerL w.data) (lowerL s.data) = true) →
        (∃ w ∈ informative_keywords, occursIn (lowerL w.data) (lowerL s.data) = true) →
        detect_emotion s = "informative") ∧
      ((¬∃ w ∈ urgent_keywords, occursIn (lowerL w.data) (lowerL s.data) = true) →
        (¬∃ w ∈ empathetic_keywords, occursIn (lowerL w.data) (lowerL s.data) = true) →
        (¬∃ w ∈ informative_keywords, occursIn (lowerL w.data) (lowerL s.data) = true) →
        (∃ w ∈ greeting_keywords, occursIn (lowerL w.data) (lowerL s.data) = true) →
        detect_emotion s = "greeting") ∧
      ((¬∃ w ∈ urgent_keywords, occursIn (lowerL w.data) (lowerL s.data) = true) →
        (¬∃ w ∈ empathetic_keywords, occursIn (lowerL w.data) (lowerL s.data) = true) →
        (¬∃ w ∈ informative_keywords, occursIn (lowerL w.data) (lowerL s.data) = true) →
        (¬∃ w ∈ greeting_keywords, occursIn (lowerL w.data) (lowerL s.data) = true) →
        detect_emotion s = "professional")) ∧
    detect_emotion "There is an emergency about your appointment." = "urgent" := by
  have hb : ∀ (kws : List String) (sl : List Char),
      (¬∃ w ∈ kws, occursIn (lowerL w.data) sl = true) → anyKw kws sl = false := by
    intro kws sl h
    cases hk : anyKw kws sl
    · rfl
    · exact absurd ((anyKw_iff kws sl).mp hk) h
  refine ⟨fun s => ?_, by decide⟩
  refine ⟨fun h => ?_, fun h1 h => ?_, fun h1 h2 h => ?_, fun h1 h2 h3 h => ?_,
    fun h1 h2 h3 h4 => ?_⟩
  · simp [detect_emotion, (anyKw_iff _ _).mpr h]
  · simp [detect_emotion, hb _ _ h1, (anyKw_iff _ _).mpr h]
  · simp [detect_emotion, hb _ _ h1, hb _ _ h2, (anyKw_iff _ _).mpr h]
  · simp [detect_emotion, hb _ _ h1, hb _ _ h2, hb _ _ h3, (anyKw_iff _ _).mpr h]
  · simp [detect_emotion, hb _ _ h1, hb _ _ h2, hb _ _ h3, hb _ _ h4]

/-- Witness for C7 at a concrete input: the urgent-priority implication
applied to a sentence that also contains the Informative keyword
"appointment". -/
theorem c7_witness :
    detect_emotion "Emergency! Your appointment moved." = "urgent" :=
  (c7_detect_emotion_priority.1 "Emergency! Your appointment moved.").1
    ⟨"emergency", by decide, by decide⟩

/-! ## C8: pronunciation substitution can nest phoneme tags -/

/-- C8 (counterexample): with the Hindi dictionary active, the sentence
`Yashoda xyashodax` makes the later entry `yashoda` re-tag the word inside
the phoneme tag inserted earlier for `Yashoda` (the case-sensitive
containment guard is satisfied by the unrelated substring `xyashodax`),
producing a phoneme tag nested inside another phoneme tag. -/
theorem c8_counterexample :
    nestedPhoneme (applyPronunciations "hindi" "Yashoda xyashodax").data = true := by
  decide

/-- C8 (amended): the only guard in the substitution loop is case-sensitive
containment of the term in the current working string; an entry whose term
does not occur anywhere in the current string leaves it unchanged.  There is
no non-overlap guard, so occurrences inside previously inserted phoneme
text can be re-tagged (see the counterexample). -/
theorem c8_amended_containment_guard (lang : String) (e : PronEntry)
    (s : List Char) (h : occursIn e.word.data s = false) :
    pronStep lang s e = s := by
  unfold pronStep
  split
  · rfl
  · simp [h]

/-- Witness for C8 at a concrete entry and string. -/
theorem c8_witness :
    occursIn "fever".data "hello world".data = false ∧
    pronStep "english" "hello world".data ⟨"fever", "ˈfiːvər", "ipa"⟩ =
      "hello world".data :=
  ⟨by decide, c8_amended_containment_guard "english" ⟨"fever", "ˈfiːvər", "ipa"⟩
    "hello world".data (by decide)⟩

/-! ## C2: the escape hatch is idempotent but does not normalize wrappers -/

/-- The escape-hatch branch, fully evaluated. -/
theorem tts_escape (lang x bt : String) (h : occursIn spk x.data = true) :
    text_to_ssml_with_emotion lang x bt =
      (if hasPfx spk x.data then x else "<speak>" ++ x ++ "</speak>") := by
  unfold text_to_ssml_with_emotion
  simp [h]

/-- C2 (counterexample): an input that is two sibling `<speak>` wrappers is
returned unchanged, so the result is not normalized to exactly one outer
wrapper. -/
theorem c2_counterexample :
    text_to_ssml_with_emotion "english" "<speak>a</speak><speak>b</speak>" "350ms" =
      "<speak>a</speak><speak>b</speak>" ∧
    singleOuterSpeak
      (text_to_ssml_with_emotion "english" "<speak>a</speak><speak>b</speak>" "350ms") =
      false := by
  constructor <;> decide

/-- C2 (amended): for input that already contains `<speak>`, assembly is
idempotent and applies no per-sentence processing — the result is exactly
the input when it starts with `<speak>`, and the input surrounded by one
extra `<speak>...</speak>` pair otherwise; pre-existing multiple or nested
wrappers are not normalized away. -/
theorem c2_amended_idempotent (lang x bt : String)
    (h : occursIn spk x.data = true) :
    text_to_ssml_with_emotion lang (text_to_ssml_with_emotion lang x bt) bt =
      text_to_ssml_with_emotion lang x bt ∧
    text_to_ssml_with_emotion lang x bt =
      (if hasPfx spk x.data then x else "<speak>" ++ x ++ "</speak>") := by
  have hx := tts_escape lang x bt h
  refine ⟨?_, hx⟩
  cases hss : hasPfx spk x.data with
  | true =>
    have hid : text_to_ssml_with_emotion lang x bt = x := by rw [hx, if_pos hss]
    rw [hid]
    exact hid
  | false =>
    have hw : text_to_ssml_with_emotion lang x bt = "<speak>" ++ x ++ "</speak>" := by
      rw [hx, if_neg (show ¬hasPfx spk x.data = true by simp [hss])]
    have hdata : ("<speak>" ++ x ++ "</speak>" : String).data =
        spk ++ (x.data ++ "</speak>".data) := by
      rw [str_data_append, str_data_append]
      simp [spk]
    have hocc : occursIn spk ("<speak>" ++ x ++ "</speak>" : String).data = true := by
      rw [hdata]
      exact occursIn_of_hasPfx _ _ (hasPfx_self_append _ _)
    have hstart : hasPfx spk ("<speak>" ++ x ++ "</speak>" : String).data = true := by
      rw [hdata]
      exact hasPfx_self_append _ _
    calc text_to_ssml_with_emotion lang (text_to_ssml_with_emotion lang x bt) bt
        = text_to_ssml_with_emotion lang ("<speak>" ++ x ++ "</speak>") bt := by
          rw [hw]
      _ = "<speak>" ++ x ++ "</speak>" := by
          rw [tts_escape lang _ bt hocc, if_pos hstart]
      _ = text_to_ssml_with_emotion lang x bt := hw.symm

/-- Witness for C2 at a concrete pre-wrapped input. -/
theorem c2_witness :
    occursIn spk "<speak>hi</speak>".data = true ∧
    text_to_ssml_with_emotion "english"
        (text_to_ssml_with_emotion "english" "<speak>hi</speak>" "350ms") "350ms" =
      text_to_ssml_with_emotion "english" "<speak>hi</speak>" "350ms" :=
  ⟨by decide,
    (c2_amended_idempotent "english" "<speak>hi</speak>" "350ms" (by decide)).1⟩

/-! ## C1: root shape of the assembled document -/

/-- C1 (counterexample): on the escape-hatch branch the output carries no
`xml:lang` attribute at all — the substring `xml:lang` does not occur in
the output for the pre-wrapped input `<speak>hello</speak>` — refuting the
claim that every output carries exactly one `xml:lang` from the closed
set. -/
theorem c1_counterexample :
    occursIn "xml:lang".data
      (text_to_ssml_with_emotion "english" "<speak>hello</speak>" "350ms").data =
      false := by
  decide

/-- C1 (amended): on the full-pipeline branch — input not containing the
literal `<speak>` — the output is a single root element
`<speak xml:lang="C">⏎␣␣BODY⏎</speak>` whose one `xml:lang` value `C` is
drawn from the closed set `{en-IN, hi-IN, ta-IN, te-IN}`, for every language
state (unknown names default to `en-IN`), every break duration, and empty or
whitespace-only input included.  On the escape-hatch branch no `xml:lang`
is added (see the counterexample). -/
theorem c1_amended_root_shape (lang text bt : String)
    (h : occursIn spk text.data = false) :
    ∃ code body,
      (code = "en-IN" ∨ code = "hi-IN" ∨ code = "ta-IN" ∨ code = "te-IN") ∧
      text_to_ssml_with_emotion lang text bt =
        String.mk ("<speak xml:lang=\"".data ++ code.data ++ "\">\n  ".data ++
          body ++ "\n</speak>".data) := by
  have hred : text_to_ssml_with_emotion lang text bt =
      String.mk ("<speak xml:lang=\"".data ++ (langCode lang).data ++ "\">\n  ".data ++
        (joinWith ("<break time=\"".data ++ bt.data ++ "\"/>".data)
          ((sentencePieces (stripL text.data)).map (processSentence lang))) ++
        "\n</speak>".data) := by
    unfold text_to_ssml_with_emotion
    simp [h]
  exact ⟨langCode lang, _, by unfold langCode; split_ifs <;> simp, hred⟩

/-- Witness for C1 at a concrete unwrapped input. -/
theorem c1_witness :
    occursIn spk "Hello.".data = false ∧
    ∃ code body,
      (code = "en-IN" ∨ code = "hi-IN" ∨ code = "ta-IN" ∨ code = "te-IN") ∧
      text_to_ssml_with_emotion "english" "Hello." "350ms" =
        String.mk ("<speak xml:lang=\"".data ++ code.data ++ "\">\n  ".data ++
          body ++ "\n</speak>".data) :=
  ⟨by decide, c1_amended_root_shape "english" "Hello." "350ms" (by decide)⟩

/-! ## Non-creation of the literal `<speak>` by the rewrite pipeline

The pre-formatting escape hatch of the assembler tests for the literal
substring `<speak>`.  The following lemmas show that none of the rewrite
passes of the pipeline can create a new occurrence of that literal, so the
full-pipeline output of the assembler never contains it (its own root tag
carries attributes). -/

theorem hasPfx_le_length (p s : List Char) (h : hasPfx p s = true) :
    p.length ≤ s.length := by
  induction p generalizing s with
  | nil => exact Nat.zero_le _
  | cons q qs ih =>
    cases s with
    | nil => simp [hasPfx] at h
    | cons c cs =>
      simp only [hasPfx, Bool.and_eq_true] at h
      simpa using ih cs h.2

theorem hasPfx_head (x : Char) (xs s : List Char)
    (h : hasPfx (x :: xs) s = true) : s.head? = some x := by
  cases s with
  | nil => simp [hasPfx] at h
  | cons c cs =>
    simp only [hasPfx, Bool.and_eq_true, beq_iff_eq] at h
    simp [h.1]

theorem hasPfx_append_or (q r X : List Char) (h : hasPfx q (r ++ X) = true) :
    hasPfx q r = true ∨
      (hasPfx r q = true ∧ hasPfx (q.drop r.length) X = true) := by
  induction r generalizing q with
  | nil => exact Or.inr ⟨rfl, h⟩
  | cons a r' ih =>
    cases q with
    | nil => exact Or.inl rfl
    | cons b q' =>
      simp only [List.cons_append, hasPfx, Bool.and_eq_true, beq_iff_eq] at h
      obtain ⟨hb, h2⟩ := h
      rcases ih q' h2 with h1 | ⟨h1, h2'⟩
      · exact Or.inl (by simp [hasPfx, hb, h1])
      · refine Or.inr ⟨by simp [hasPfx, hb, h1], ?_⟩
        simpa using h2'

theorem hasPfx_append_long (p a b : List Char) (h : p.length ≤ a.length) :
    hasPfx p (a ++ b) = hasPfx p a := by
  induction p generalizing a with
  | nil => rfl
  | cons q qs ih =>
    cases a with
    | nil => simp at h
    | cons c cs =>
      simp only [List.length_cons, Nat.succ_le_succ_iff] at h
      simp [hasPfx, ih cs h]

theorem hasPfx_of_take (p s : List Char) (h : hasPfx p s = true) :
    s.take p.length = p := by
  induction p generalizing s with
  | nil => rfl
  | cons q qs ih =>
    cases s with
    | nil => simp [hasPfx] at h
    | cons c cs =>
      simp only [hasPfx, Bool.and_eq_true, beq_iff_eq] at h
      simp [List.take, h.1.symm, ih cs h.2]

theorem hasSfx_refl (p : List Char) : hasSfx p p = true :=
  hasPfx_refl p.reverse

theorem hasSfx_cons_ext (p s : List Char) (c : Char) (h : hasSfx p s = true) :
    hasSfx p (c :: s) = true := by
  unfold hasSfx at h ⊢
  rw [List.reverse_cons]
  exact hasPfx_append_ext _ _ _ h

theorem hasSfx_append_long (p a b : List Char) (h : p.length ≤ b.length) :
    hasSfx p (a ++ b) = hasSfx p b := by
  unfold hasSfx
  rw [List.reverse_append]
  exact hasPfx_append_long _ _ _ (by simpa using h)

theorem hasSfx_last (p s : List Char) (h : hasSfx p s = true) (hne : p ≠ []) :
    s.getLast? = p.getLast? := by
  unfold hasSfx at h
  have hne' : p.reverse ≠ [] := by simpa using hne
  obtain ⟨x, xs, hx⟩ := List.exists_cons_of_ne_nil hne'
  rw [hx] at h
  have hh := hasPfx_head x xs _ h
  rw [← List.head?_reverse, ← List.head?_reverse, hx, hh]
  rfl

theorem occursIn_drop_imp (p l : List Char) (k : Nat)
    (h : occursIn p (l.drop k) = true) : occursIn p l = true := by
  induction l generalizing k with
  | nil => simpa using h
  | cons c cs ih =>
    cases k with
    | zero => exact h
    | succ k' =>
      simp only [List.drop_succ_cons] at h
      simp only [occursIn, Bool.or_eq_true]
      exact Or.inr (ih k' h)

theorem occursIn_no_lt (s : List Char) (h : ∀ c ∈ s, c ≠ '<') :
    occursIn spk s = false := by
  induction s with
  | nil => rfl
  | cons c cs ih =>
    have hc : c ≠ '<' := h c (List.mem_cons_self c cs)
    simp only [occursIn, Bool.or_eq_false_iff]
    constructor
    · simp only [spk, hasPfx]
      simp [Ne.symm hc]
    · exact ih (fun d hd => h d (List.mem_cons_of_mem c hd))

theorem mem_spkSplits_take_drop (l : Nat) (h1 : 1 ≤ l) (h6 : l ≤ 6) :
    (spk.take l, spk.drop l) ∈ spkSplits := by
  have : l = 1 ∨ l = 2 ∨ l = 3 ∨ l = 4 ∨ l = 5 ∨ l = 6 := by omega
  rcases this with h | h | h | h | h | h <;> subst h <;> decide

theorem spkStraddle_of_mem (p1 p2 a b : List Char)
    (hm : (p1, p2) ∈ spkSplits) (h1 : hasSfx p1 a = true)
    (h2 : hasPfx p2 b = true) : spkStraddle a b = true := by
  unfold spkStraddle
  rw [List.any_eq_true]
  exact ⟨(p1, p2), hm, by simp [h1, h2]⟩

theorem spkStraddle_cons (a b : List Char) (c : Char)
    (h : spkStraddle a b = true) : spkStraddle (c :: a) b = true := by
  unfold spkStraddle at h ⊢
  rw [List.any_eq_true] at h ⊢
  obtain ⟨pr, hm, hpr⟩ := h
  simp only [Bool.and_eq_true] at hpr
  exact ⟨pr, hm, by simp [hasSfx_cons_ext _ _ _ hpr.1, hpr.2]⟩

theorem occursIn_spk_append (a b : List Char)
    (h : occursIn spk (a ++ b) = true) :
    occursIn spk a = true ∨ occursIn spk b = true ∨ spkStraddle a b = true := by
  induction a with
  | nil => exact Or.inr (Or.inl h)
  | cons c a' ih =>
    simp only [List.cons_append, occursIn, Bool.or_eq_true] at h
    rcases h with h | h
    · rcases hasPfx_append_or spk (c :: a') b (by simpa using h) with h1 | ⟨h1, h2⟩
      · exact Or.inl (occursIn_of_hasPfx _ _ h1)
      · have hlen : a'.length + 1 ≤ 7 := by
          have := hasPfx_le_length (c :: a') spk h1
          simpa [spk] using this
        have htake : spk.take (a'.length + 1) = c :: a' := by
          have := hasPfx_of_take (c :: a') spk h1
          simpa using this
        by_cases h7 : a'.length + 1 = 7
        · rw [h7] at htake
          have hspk : spk = c :: a' := by
            rw [← htake]
            decide
          exact Or.inl (occursIn_of_hasPfx _ _ (by rw [hspk]; exact hasPfx_refl _))
        · have h6 : a'.length + 1 ≤ 6 := by omega
          have hmem := mem_spkSplits_take_drop (a'.length + 1)
            (Nat.succ_le_succ (Nat.zero_le _)) h6
          have hself : hasSfx (spk.take (a'.length + 1)) (c :: a') = true := by
            rw [htake]; exact hasSfx_refl _
          have hdrop : hasPfx (spk.drop (a'.length + 1)) b = true := by
            simpa using h2
          exact Or.inr (Or.inr (spkStraddle_of_mem _ _ _ _ hmem hself hdrop))
    · rcases ih h with h1 | h1 | h1
      · exact Or.inl (by simp [occursIn, h1])
      · exact Or.inr (Or.inl h1)
      · exact Or.inr (Or.inr (spkStraddle_cons _ _ _ h1))

theorem spkSufs_struct :
    ∀ q ∈ spkSufs, q ≠ [] ∧ (q.tail = [] ∨ q.tail ∈ spkSufs) := by decide

theorem safeRepl_parts (r : List Char) (h : safeRepl r = true) :
    occursIn spk r = false ∧
    (∀ q ∈ spkSufs, hasPfx q r = false ∧ hasPfx r q = false) ∧
    (∀ pr ∈ spkSplits, hasSfx pr.1 r = false) := by
  simp only [safeRepl, Bool.and_eq_true, List.all_eq_true, Bool.not_eq_true'] at h
  obtain ⟨⟨h1, h2⟩, h3⟩ := h
  refine ⟨h1, fun q hq => ?_, fun pr hpr => h3 pr hpr⟩
  have := h2 q hq
  simp only [Bool.and_eq_true, Bool.not_eq_true'] at this
  exact this

/-- If a suffix of `<speak>` is a prefix of the output of a safe rewrite
pass, then it was already a prefix of the input, or `<speak>` occurred in
the input. -/
theorem scanRw_pfx (f : Option Char → List Char → Option (List Char × Nat))
    (hf : SafeF f) :
    ∀ (fuel : Nat) (prev : Option Char) (s q : List Char), q ∈ spkSufs →
      hasPfx q (scanRw f fuel prev s) = true →
      hasPfx q s = true ∨ occursIn spk s = true := by
  intro fuel
  induction fuel with
  | zero =>
    intro prev s q _ h
    exact Or.inl (by simpa [scanRw] using h)
  | succ n ih =>
    intro prev s q hq h
    obtain ⟨hqne, _⟩ := spkSufs_struct q hq
    cases s with
    | nil =>
      rw [show scanRw f (n + 1) prev [] = [] from rfl] at h
      cases q with
      | nil => exact absurd rfl hqne
      | cons _ _ => simp [hasPfx] at h
    | cons c cs =>
      rw [show scanRw f (n + 1) prev (c :: cs) =
          (match f prev (c :: cs) with
           | some (r, m) => r ++ scanRw f n ((c :: cs).drop m).head? (cs.drop m)
           | none => c :: scanRw f n (some c) cs) from rfl] at h
      cases hm : f prev (c :: cs) with
      | some rm =>
        obtain ⟨r, m⟩ := rm
        rw [hm] at h
        simp only at h
        rcases hasPfx_append_or q r _ h with h1 | ⟨h1, _⟩
        · exact absurd h1 (by simp [((safeRepl_parts r (hf prev _ r m hm)).2.1 q hq).1])
        · exact absurd h1 (by simp [((safeRepl_parts r (hf prev _ r m hm)).2.1 q hq).2])
      | none =>
        rw [hm] at h
        simp only at h
        cases q with
        | nil => exact Or.inl rfl
        | cons qh qt =>
          simp only [hasPfx, Bool.and_eq_true, beq_iff_eq] at h
          obtain ⟨hqc, hqt⟩ := h
          by_cases hqtnil : qt = []
          · subst hqtnil
            exact Or.inl (by simp [hasPfx, hqc])
          · have hqtmem : qt ∈ spkSufs := by
              rcases (spkSufs_struct (qh :: qt) hq).2 with ht | ht
              · exact absurd ht hqtnil
              · exact ht
            rcases ih (some c) cs qt hqtmem hqt with h1 | h1
            · exact Or.inl (by simp [hasPfx, hqc, h1])
            · exact Or.inr (by simp [occursIn, h1])

/-- A safe rewrite pass cannot create an occurrence of `<speak>`. -/
theorem scanRw_no_spk (f : Option Char → List Char → Option (List Char × Nat))
    (hf : SafeF f) :
    ∀ (fuel : Nat) (prev : Option Char) (s : List Char),
      occursIn spk (scanRw f fuel prev s) = true → occursIn spk s = true := by
  intro fuel
  induction fuel with
  | zero =>
    intro prev s h
    simpa [scanRw] using h
  | succ n ih =>
    intro prev s h
    cases s with
    | nil =>
      rw [show scanRw f (n + 1) prev [] = [] from rfl] at h
      simp [occursIn, hasPfx, spk] at h
    | cons c cs =>
      rw [show scanRw f (n + 1) prev (c :: cs) =
          (match f prev (c :: cs) with
           | some (r, m) => r ++ scanRw f n ((c :: cs).drop m).head? (cs.drop m)
           | none => c :: scanRw f n (some c) cs) from rfl] at h
      cases hm : f prev (c :: cs) with
      | some rm =>
        obtain ⟨r, m⟩ := rm
        rw [hm] at h
        simp only at h
        have hparts := safeRepl_parts r (hf prev _ r m hm)
        rcases occursIn_spk_append _ _ h with h1 | h1 | h1
        · exact absurd h1 (by simp [hparts.1])
        · have := ih _ _ h1
          have := occursIn_drop_imp spk cs m this
          simp [occursIn, this]
        · exfalso
          unfold spkStraddle at h1
          rw [List.any_eq_true] at h1
          obtain ⟨pr, hmem, hpr⟩ := h1
          simp only [Bool.and_eq_true] at hpr
          exact absurd hpr.1 (by simp [hparts.2.2 pr hmem])
      | none =>
        rw [hm] at h
        simp only at h
        simp only [occursIn, Bool.or_eq_true] at h
        rcases h with h | h
        · have hspk : spk = '<' :: "speak>".data := by decide
          rw [hspk] at h
          simp only [hasPfx, Bool.and_eq_true, beq_iff_eq] at h
          obtain ⟨hc, htail⟩ := h
          have hmem : "speak>".data ∈ spkSufs := by decide
          rcases scanRw_pfx f hf n (some c) cs _ hmem htail with h1 | h1
          · have : hasPfx spk (c :: cs) = true := by
              rw [hspk]
              simp only [hasPfx, Bool.and_eq_true, beq_iff_eq]
              exact ⟨hc, h1⟩
            exact occursIn_of_hasPfx _ _ this
          · exact (by simp [occursIn, h1] : occursIn spk (c :: cs) = true)
        · exact (by simp [occursIn, ih _ _ h] : occursIn spk (c :: cs) = true)

/-- `runPass` version of the non-creation lemma. -/
theorem runPass_no_spk (f : Option Char → List Char → Option (List Char × Nat))
    (hf : SafeF f) (s : List Char)
    (h : occursIn spk (runPass f s) = true) : occursIn spk s = true :=
  scanRw_no_spk f hf s.length none s h

/-! ### Small supporting facts -/

theorem head?_append_left (x : Char) (t b : List Char) :
    ((x :: t) ++ b).head? = some x := rfl

theorem getLast?_append_right (a b : List Char) (h : b ≠ []) :
    (a ++ b).getLast? = b.getLast? := by
  rw [← List.head?_reverse, ← List.head?_reverse, List.reverse_append]
  cases hb : b.reverse with
  | nil => exact absurd (by simpa using hb) h
  | cons x t => rfl

theorem mem_takeWhile_pred (p : Char → Bool) (c : Char) :
    ∀ l : List Char, c ∈ l.takeWhile p → p c = true := by
  intro l
  induction l with
  | nil => intro h; simp [List.takeWhile] at h
  | cons a t ih =>
    intro h
    rw [List.takeWhile] at h
    by_cases hp : p a = true
    · rw [hp] at h
      simp only at h
      rcases List.mem_cons.mp h with rfl | h
      · exact hp
      · exact ih h
    · rw [Bool.not_eq_true] at hp
      rw [hp] at h
      simp at h

theorem getLast?_of_ne_nil (l : List Char) (h : l ≠ []) :
    ∃ z, l.getLast? = some z ∧ z ∈ l := by
  rw [← List.head?_reverse]
  cases hb : l.reverse with
  | nil => exact absurd (by simpa using hb) h
  | cons x t =>
    refine ⟨x, rfl, ?_⟩
    have : x ∈ l.reverse := by rw [hb]; exact List.mem_cons_self x t
    simpa using this

theorem digit_ne_marks (h : Char) (hd : h.isDigit = true) :
    h ≠ '<' ∧ h ≠ 's' ∧ h ≠ 'p' ∧ h ≠ 'e' ∧ h ≠ 'a' ∧ h ≠ 'k' ∧ h ≠ '>' := by
  refine ⟨?_, ?_, ?_, ?_, ?_, ?_, ?_⟩ <;> (rintro rfl; exact absurd hd (by decide))

theorem spkSufs_head_mem :
    ∀ q ∈ spkSufs,
      q.head? ∈ [some '<', some 's', some 'p', some 'e', some 'a', some 'k',
        some '>'] := by decide

theorem spkSufs_len : ∀ q ∈ spkSufs, q.length ≤ 7 := by decide

theorem spkSplits_left_struct :
    ∀ pr ∈ spkSplits, pr.1 ≠ [] ∧ pr.1.length ≤ 6 ∧
      pr.1.getLast? ∈ [some '<', some 's', some 'p', some 'e', some 'a',
        some 'k'] := by decide

/-! ### Shape lemmas establishing `safeRepl` -/

theorem head_not_marks (x : Char)
    (hx : x ≠ '<' ∧ x ≠ 's' ∧ x ≠ 'p' ∧ x ≠ 'e' ∧ x ≠ 'a' ∧ x ≠ 'k' ∧ x ≠ '>')
    (hmem : (some x : Option Char) ∈
      [some '<', some 's', some 'p', some 'e', some 'a', some 'k', some '>']) :
    False := by
  simp only [List.mem_cons, Option.some.injEq] at hmem
  rcases hmem with h | h | h | h | h | h | h | h
  exacts [hx.1 h, hx.2.1 h, hx.2.2.1 h, hx.2.2.2.1 h, hx.2.2.2.2.1 h,
    hx.2.2.2.2.2.1 h, hx.2.2.2.2.2.2 h, by simp at h]

theorem last_not_marks (z : Char)
    (hz : z ≠ '<' ∧ z ≠ 's' ∧ z ≠ 'p' ∧ z ≠ 'e' ∧ z ≠ 'a' ∧ z ≠ 'k')
    (hmem : (some z : Option Char) ∈
      [some '<', some 's', some 'p', some 'e', some 'a', some 'k']) :
    False := by
  simp only [List.mem_cons, Option.some.injEq] at hmem
  rcases hmem with h | h | h | h | h | h | h
  exacts [hz.1 h, hz.2.1 h, hz.2.2.1 h, hz.2.2.2.1 h, hz.2.2.2.2.1 h,
    hz.2.2.2.2.2 h, by simp at h]

/-- A replacement whose first character is none of the characters of
`<speak>` plus `>`, whose last character is not among the proper-prefix
ends, and which contains no `<`, is safe. -/
theorem safeRepl_simple (r : List Char) (hne : r ≠ [])
    (hlt : ∀ c ∈ r, c ≠ '<')
    (hh : ∀ x, r.head? = some x →
      x ≠ '<' ∧ x ≠ 's' ∧ x ≠ 'p' ∧ x ≠ 'e' ∧ x ≠ 'a' ∧ x ≠ 'k' ∧ x ≠ '>')
    (hl : ∀ z, r.getLast? = some z →
      z ≠ '<' ∧ z ≠ 's' ∧ z ≠ 'p' ∧ z ≠ 'e' ∧ z ≠ 'a' ∧ z ≠ 'k') :
    safeRepl r = true := by
  simp only [safeRepl, Bool.and_eq_true, List.all_eq_true, Bool.not_eq_true']
  refine ⟨⟨occursIn_no_lt r hlt, fun q hq => ?_⟩, fun pr hpr => ?_⟩
  · have hqh := spkSufs_head_mem q hq
    obtain ⟨hqne, _⟩ := spkSufs_struct q hq
    obtain ⟨qh, qt, rfl⟩ := List.exists_cons_of_ne_nil hqne
    obtain ⟨rh, rt, rfl⟩ := List.exists_cons_of_ne_nil hne
    constructor
    · cases hp : hasPfx (qh :: qt) (rh :: rt)
      · rfl
      · exfalso
        have hhead := hasPfx_head qh qt _ hp
        have heq : rh = qh := by simpa using hhead
        exact head_not_marks qh (heq ▸ hh rh rfl) (by simpa using hqh)
    · cases hp : hasPfx (rh :: rt) (qh :: qt)
      · rfl
      · exfalso
        have hhead := hasPfx_head rh rt _ hp
        have heq : qh = rh := by simpa using hhead
        refine head_not_marks rh (hh rh rfl) ?_
        have : (some qh : Option Char) ∈
            [some '<', some 's', some 'p', some 'e', some 'a', some 'k',
              some '>'] := by simpa using hqh
        rwa [heq] at this
  · obtain ⟨hne1, _, hlast⟩ := spkSplits_left_struct pr hpr
    cases hp : hasSfx pr.1 r
    · rfl
    · exfalso
      have hgl := hasSfx_last pr.1 r hp hne1
      obtain ⟨z, hz, _⟩ := getLast?_of_ne_nil r hne
      have h2 : pr.1.getLast? = some z := by rw [← hgl, hz]
      exact last_not_marks z (hl z hz) (h2 ▸ hlast)

/-- Sandwich shape `l1 ++ (mid ++ l2)`: a tag with long literal halves
around arbitrary middle text containing no `<` is safe. -/
theorem safeRepl_sandwich (l1 l2 mid : List Char)
    (h7 : 7 ≤ l1.length) (h6 : 6 ≤ l2.length)
    (ho1 : occursIn spk l1 = false) (ho2 : occursIn spk l2 = false)
    (hq1 : ∀ q ∈ spkSufs, hasPfx q l1 = false)
    (hs1 : ∀ pr ∈ spkSplits, hasSfx pr.1 l1 = false)
    (hs2 : ∀ pr ∈ spkSplits, hasSfx pr.1 l2 = false)
    (hp2 : ∀ pr ∈ spkSplits, hasPfx pr.2 l2 = false)
    (hm : ∀ c ∈ mid, c ≠ '<') :
    safeRepl (l1 ++ (mid ++ l2)) = true := by
  simp only [safeRepl, Bool.and_eq_true, List.all_eq_true, Bool.not_eq_true']
  refine ⟨⟨?_, fun q hq => ⟨?_, ?_⟩⟩, fun pr hpr => ?_⟩
  · cases ho : occursIn spk (l1 ++ (mid ++ l2))
    · rfl
    · exfalso
      rcases occursIn_spk_append _ _ ho with h | h | h
      · exact absurd h (by simp [ho1])
      · rcases occursIn_spk_append _ _ h with h' | h' | h'
        · exact absurd h' (by simp [occursIn_no_lt mid hm])
        · exact absurd h' (by simp [ho2])
        · unfold spkStraddle at h'
          rw [List.any_eq_true] at h'
          obtain ⟨pr, hmem, hpr⟩ := h'
          simp only [Bool.and_eq_true] at hpr
          exact absurd hpr.2 (by simp [hp2 pr hmem])
      · unfold spkStraddle at h
        rw [List.any_eq_true] at h
        obtain ⟨pr, hmem, hpr⟩ := h
        simp only [Bool.and_eq_true] at hpr
        exact absurd hpr.1 (by simp [hs1 pr hmem])
  · rw [hasPfx_append_long q l1 (mid ++ l2)
      (le_trans (spkSufs_len q hq) h7)]
    exact hq1 q hq
  · cases hp : hasPfx (l1 ++ (mid ++ l2)) q
    · rfl
    · exfalso
      have hlen := hasPfx_le_length _ _ hp
      have := spkSufs_len q hq
      simp only [List.length_append] at hlen
      omega
  · have h1 : pr.1.length ≤ (mid ++ l2).length := by
      obtain ⟨_, hl6, _⟩ := spkSplits_left_struct pr hpr
      simp only [List.length_append]
      omega
    rw [hasSfx_append_long pr.1 l1 (mid ++ l2) h1]
    rw [hasSfx_append_long pr.1 mid l2
      (le_trans (spkSplits_left_struct pr hpr).2.1 h6)]
    exact hs2 pr hpr

/-- Tail shape `x ++ lit`: token text followed by a long safe literal. -/
theorem safeRepl_dtail (x lit : List Char)
    (hx : ∀ c ∈ x, c ≠ '<')
    (hxh : ∀ ch, x.head? = some ch →
      ch ≠ '<' ∧ ch ≠ 's' ∧ ch ≠ 'p' ∧ ch ≠ 'e' ∧ ch ≠ 'a' ∧ ch ≠ 'k' ∧ ch ≠ '>')
    (h6 : 6 ≤ lit.length)
    (ho : occursIn spk lit = false)
    (hq1 : ∀ q ∈ spkSufs, hasPfx q lit = false)
    (hq2 : ∀ q ∈ spkSufs, hasPfx lit q = false)
    (hs : ∀ pr ∈ spkSplits, hasSfx pr.1 lit = false)
    (hp2 : ∀ pr ∈ spkSplits, hasPfx pr.2 lit = false) :
    safeRepl (x ++ lit) = true := by
  simp only [safeRepl, Bool.and_eq_true, List.all_eq_true, Bool.not_eq_true']
  refine ⟨⟨?_, fun q hq => ⟨?_, ?_⟩⟩, fun pr hpr => ?_⟩
  · cases ho' : occursIn spk (x ++ lit)
    · rfl
    · exfalso
      rcases occursIn_spk_append _ _ ho' with h | h | h
      · exact absurd h (by simp [occursIn_no_lt x hx])
      · exact absurd h (by simp [ho])
      · unfold spkStraddle at h
        rw [List.any_eq_true] at h
        obtain ⟨pr, hmem, hpr⟩ := h
        simp only [Bool.and_eq_true] at hpr
        exact absurd hpr.2 (by simp [hp2 pr hmem])
  · cases x with
    | nil => exact hq1 q hq
    | cons xh xt =>
      cases hp : hasPfx q ((xh :: xt) ++ lit)
      · rfl
      · exfalso
        obtain ⟨hqne, _⟩ := spkSufs_struct q hq
        obtain ⟨qh, qt, rfl⟩ := List.exists_cons_of_ne_nil hqne
        have hhead := hasPfx_head qh qt _ hp
        have heq : xh = qh := by simpa using hhead
        exact head_not_marks qh (heq ▸ hxh xh rfl)
          (by simpa using spkSufs_head_mem _ hq)
  · cases x with
    | nil => exact hq2 q hq
    | cons xh xt =>
      cases hp : hasPfx ((xh :: xt) ++ lit) q
      · rfl
      · exfalso
        have hhead := hasPfx_head xh (xt ++ lit) _ hp
        refine head_not_marks xh (hxh xh rfl) ?_
        have := spkSufs_head_mem q hq
        rw [hhead] at this
        exact this
  · rw [hasSfx_append_long pr.1 x lit
      (le_trans (spkSplits_left_struct pr hpr).2.1 h6)]
    exact hs pr hpr

/-! ### Per-replacement safety of `replFn` -/

theorem allowedTok_ne_lt (c : Char) (h : allowedTok c = true) : c ≠ '<' := by
  rintro rfl
  exact absurd h (by decide)

theorem splitOnChar_mem (sep : Char) :
    ∀ (l : List Char), ∀ p ∈ splitOnChar sep l, ∀ c ∈ p, c ∈ l := by
  intro l
  induction l with
  | nil =>
    intro p hp c hc
    simp only [splitOnChar, List.mem_singleton] at hp
    subst hp
    simp at hc
  | cons a l' ih =>
    intro p hp c hc
    rw [splitOnChar] at hp
    by_cases ha : a = sep
    · rw [if_pos ha] at hp
      rcases List.mem_cons.mp hp with rfl | hp
      · simp at hc
      · exact List.mem_cons_of_mem a (ih p hp c hc)
    · rw [if_neg ha] at hp
      cases hsp : splitOnChar sep l' with
      | nil =>
        rw [hsp] at hp
        simp only [List.mem_singleton] at hp
        subst hp
        simp only [List.mem_singleton] at hc
        subst hc
        exact List.mem_cons_self c l'
      | cons p0 ps =>
        rw [hsp] at hp
        rcases List.mem_cons.mp hp with rfl | hp
        · rcases List.mem_cons.mp hc with rfl | hc
          · exact List.mem_cons_self c l'
          · refine List.mem_cons_of_mem a (ih p0 ?_ c hc)
            rw [hsp]
            exact List.mem_cons_self p0 ps
        · refine List.mem_cons_of_mem a (ih p ?_ c hc)
          rw [hsp]
          exact List.mem_cons_of_mem p0 hp

theorem splitOnChar_first (sep : Char) (l : List Char) (c0 : Char)
    (hh : l.head? = some c0) (hne : c0 ≠ sep) :
    ∃ p0 ps, splitOnChar sep l = p0 :: ps ∧ p0.head? = some c0 := by
  cases l with
  | nil => simp at hh
  | cons a l' =>
    have ha : a = c0 := by simpa using hh
    subst ha
    rw [splitOnChar, if_neg hne]
    cases hsp : splitOnChar sep l' with
    | nil => exact ⟨[a], [], rfl, rfl⟩
    | cons p0 ps => exact ⟨a :: p0, ps, rfl, rfl⟩

theorem takeDigits_digits :
    ∀ (n : Nat) (s d r : List Char), takeDigits n s = some (d, r) →
      ∀ c ∈ d, c.isDigit = true := by
  intro n
  induction n with
  | zero =>
    intro s d r h c hc
    simp only [takeDigits, Option.some.injEq, Prod.mk.injEq] at h
    rw [← h.1] at hc
    simp at hc
  | succ n ih =>
    intro s d r h c hc
    cases s with
    | nil => simp [takeDigits] at h
    | cons a t =>
      rw [takeDigits] at h
      by_cases hd : a.isDigit = true
      · rw [if_pos hd] at h
        cases ht : takeDigits n t with
        | none => rw [ht] at h; simp at h
        | some p =>
          rw [ht] at h
          obtain ⟨d', r'⟩ := p
          simp only [Option.map_some', Option.some.injEq, Prod.mk.injEq] at h
          rw [← h.1] at hc
          rcases List.mem_cons.mp hc with rfl | hc
          · exact hd
          · exact ih t d' r' ht c hc
      · rw [if_neg hd] at h
        simp at h

theorem ampmLit_cases (s lit r : List Char) (h : ampmLit s = some (lit, r)) :
    lit = "AM".data ∨ lit = "PM".data ∨ lit = "am".data ∨ lit = "pm".data := by
  unfold ampmLit at h
  split at h <;> simp_all

theorem searchMinPeriod_spec :
    ∀ (per mm lit : List Char), searchMinPeriod per = some (mm, lit) →
      (∀ c ∈ mm, c.isDigit = true) ∧
      (lit = "AM".data ∨ lit = "PM".data ∨ lit = "am".data ∨ lit = "pm".data) := by
  intro per
  induction per with
  | nil => intro mm lit h; simp [searchMinPeriod] at h
  | cons c cs ih =>
    intro mm lit h
    rw [searchMinPeriod] at h
    cases hm : minPerAt (c :: cs) with
    | some p =>
      rw [hm] at h
      simp only [Option.orElse] at h
      obtain ⟨mm', lit'⟩ := p
      have hp : mm' = mm ∧ lit' = lit := by
        simp only [Option.some.injEq, Prod.mk.injEq] at h
        exact ⟨h.1, h.2⟩
      obtain ⟨rfl, rfl⟩ := hp
      unfold minPerAt at hm
      cases htd : takeDigits 2 (c :: cs) with
      | none => rw [htd] at hm; simp at hm
      | some q =>
        rw [htd] at hm
        obtain ⟨d2, r2⟩ := q
        simp only at hm
        cases hal : ampmLit (r2.dropWhile isSpaceC) with
        | none => rw [hal] at hm; simp at hm
        | some al =>
          rw [hal] at hm
          obtain ⟨l2, r3⟩ := al
          simp only [Option.some.injEq, Prod.mk.injEq] at hm
          obtain ⟨rfl, rfl⟩ := hm
          exact ⟨takeDigits_digits 2 _ _ _ htd, ampmLit_cases _ _ _ hal⟩
    | none =>
      rw [hm] at h
      simp only [Option.orElse] at h
      exact ih mm lit h

theorem tokenOk_spec (num : List Char) (h : tokenOk num = true) :
    num ≠ [] ∧ (∀ c ∈ num, allowedTok c = true) ∧
      (∃ h0, num.head? = some h0 ∧ h0.isDigit = true) ∧
      (∃ z, num.getLast? = some z ∧ (z.isDigit = true ∨ z = 'm' ∨ z = 'M')) := by
  simp only [tokenOk, Bool.and_eq_true, List.all_eq_true, Bool.not_eq_true'] at h
  obtain ⟨⟨⟨hne, hhd⟩, hall⟩, hlast⟩ := h
  have hne' : num ≠ [] := by
    cases num
    · simp at hne
    · simp
  refine ⟨hne', hall, ?_, ?_⟩
  · cases hh : num.head? with
    | none => rw [hh] at hhd; simp at hhd
    | some h0 =>
      rw [hh] at hhd
      exact ⟨h0, rfl, hhd⟩
  · cases hl : num.getLast? with
    | none => rw [hl] at hlast; simp at hlast
    | some z =>
      rw [hl] at hlast
      simp only [Bool.or_eq_true, beq_iff_eq] at hlast
      refine ⟨z, rfl, ?_⟩
      rcases hlast with (h | h) | h
      · exact Or.inl h
      · exact Or.inr (Or.inl (by simpa using h))
      · exact Or.inr (Or.inr (by simpa using h))

theorem safeRepl_token (num : List Char) (ht : tokenOk num = true) :
    safeRepl num = true := by
  obtain ⟨hne, hall, ⟨h0, hh0, hd0⟩, ⟨z, hz, hdz⟩⟩ := tokenOk_spec num ht
  refine safeRepl_simple num hne (fun c hc => allowedTok_ne_lt c (hall c hc))
    (fun x hx => ?_) (fun w hw => ?_)
  · rw [hh0] at hx
    have : h0 = x := by simpa using hx
    subst this
    exact digit_ne_marks h0 hd0
  · rw [hz] at hw
    have : z = w := by simpa using hw
    subst this
    rcases hdz with h | h | h
    · have := digit_ne_marks z h
      exact ⟨this.1, this.2.1, this.2.2.1, this.2.2.2.1, this.2.2.2.2.1,
        this.2.2.2.2.2.1⟩
    · subst h; refine ⟨?_, ?_, ?_, ?_, ?_, ?_⟩ <;> decide
    · subst h; refine ⟨?_, ?_, ?_, ?_, ?_, ?_⟩ <;> decide

theorem safeRepl_sayAs_tel (mid : List Char) (hm : ∀ c ∈ mid, c ≠ '<') :
    safeRepl (sayAsTag "telephone".data mid) = true := by
  have he : sayAsTag "telephone".data mid =
      ("<say-as interpret-as=\"".data ++ "telephone".data ++ "\">".data) ++
        (mid ++ "</say-as>".data) := by
    simp [sayAsTag]
  rw [he]
  exact safeRepl_sandwich _ _ mid (by decide) (by decide) (by decide) (by decide)
    (by decide) (by decide) (by decide) (by decide) hm

theorem safeRepl_sayAs_card (mid : List Char) (hm : ∀ c ∈ mid, c ≠ '<') :
    safeRepl (sayAsTag "cardinal".data mid) = true := by
  have he : sayAsTag "cardinal".data mid =
      ("<say-as interpret-as=\"".data ++ "cardinal".data ++ "\">".data) ++
        (mid ++ "</say-as>".data) := by
    simp [sayAsTag]
  rw [he]
  exact safeRepl_sandwich _ _ mid (by decide) (by decide) (by decide) (by decide)
    (by decide) (by decide) (by decide) (by decide) hm

theorem safeRepl_sayAs_chars (mid : List Char) (hm : ∀ c ∈ mid, c ≠ '<') :
    safeRepl (sayAsTag "characters".data mid) = true := by
  have he : sayAsTag "characters".data mid =
      ("<say-as interpret-as=\"".data ++ "characters".data ++ "\">".data) ++
        (mid ++ "</say-as>".data) := by
    simp [sayAsTag]
  rw [he]
  exact safeRepl_sandwich _ _ mid (by decide) (by decide) (by decide) (by decide)
    (by decide) (by decide) (by decide) (by decide) hm

theorem safeRepl_dateTag (mid : List Char) (hm : ∀ c ∈ mid, c ≠ '<') :
    safeRepl (dateTag mid) = true := by
  have he : dateTag mid =
      "<say-as interpret-as=\"date\" format=\"dmy\">".data ++
        (mid ++ "</say-as>".data) := by
    simp [dateTag]
  rw [he]
  exact safeRepl_sandwich _ _ mid (by decide) (by decide) (by decide) (by decide)
    (by decide) (by decide) (by decide) (by decide) hm

theorem safeRepl_timeTag (mid : List Char) (hm : ∀ c ∈ mid, c ≠ '<') :
    safeRepl (timeTag mid) = true := by
  have he : timeTag mid =
      "<say-as interpret-as=\"time\" format=\"hms24\">".data ++
        (mid ++ "</say-as>".data) := by
    simp [timeTag]
  rw [he]
  exact safeRepl_sandwich _ _ mid (by decide) (by decide) (by decide) (by decide)
    (by decide) (by decide) (by decide) (by decide) hm

/-- The verbal time replacements `H (thirty/M) am|pm` are safe. -/
theorem safeRepl_verbal (tp mid low : List Char)
    (htp : ∃ h0, tp.head? = some h0 ∧ h0.isDigit = true)
    (htpc : ∀ c ∈ tp, c ≠ '<')
    (hmidc : ∀ c ∈ mid, c ≠ '<')
    (hlow : low = "am".data ∨ low = "pm".data) :
    safeRepl (tp ++ (mid ++ low)) = true := by
  obtain ⟨h0, hh0, hd0⟩ := htp
  have htpne : tp ≠ [] := by rintro rfl; simp at hh0
  obtain ⟨th, tt, rfl⟩ := List.exists_cons_of_ne_nil htpne
  have hdth : th.isDigit = true := by
    have hth : th = h0 := by simpa using hh0
    rw [hth]
    exact hd0
  have hlne : low ≠ [] := by rcases hlow with rfl | rfl <;> decide
  have hmlne : mid ++ low ≠ [] := by
    intro habs
    exact hlne (List.append_eq_nil.mp habs).2
  have hglast : ((th :: tt) ++ (mid ++ low)).getLast? = low.getLast? := by
    rw [getLast?_append_right _ _ hmlne, getLast?_append_right _ _ hlne]
  refine safeRepl_simple _ (by simp) (fun c hc => ?_) (fun x hx => ?_)
    (fun z hz => ?_)
  · rcases List.mem_append.mp hc with hc | hc
    · exact htpc c hc
    · rcases List.mem_append.mp hc with hc | hc
      · exact hmidc c hc
      · rcases hlow with rfl | rfl
        · exact (by decide : ∀ x ∈ "am".data, x ≠ '<') c hc
        · exact (by decide : ∀ x ∈ "pm".data, x ≠ '<') c hc
  · have hx' : x = th := by
      have hr : ((th :: tt : List Char) ++ (mid ++ low)).head? = some th := rfl
      rw [hr] at hx
      simpa using hx.symm
    rw [hx']
    exact digit_ne_marks th hdth
  · rw [hglast] at hz
    have hzm : z = 'm' := by
      rcases hlow with rfl | rfl <;> simpa using hz.symm
    rw [hzm]
    refine ⟨?_, ?_, ?_, ?_, ?_, ?_⟩ <;> decide

theorem digit_ne_seps (c : Char) (hd : c.isDigit = true) :
    c ≠ ':' ∧ c ≠ '/' := by
  constructor <;> rintro rfl <;> exact absurd hd (by decide)

/-- Every replacement `replFn` can produce from a well-shaped token is
safe. -/
theorem safeRepl_replFn (ctx num : List Char) (ht : tokenOk num = true) :
    safeRepl (replFn ctx num) = true := by
  obtain ⟨hne, hall, ⟨h0, hh0, hd0⟩, _⟩ := tokenOk_spec num ht
  have hnochar : ∀ c ∈ num, c ≠ '<' := fun c hc => allowedTok_ne_lt c (hall c hc)
  have hsplitmem : ∀ (sep : Char) (p : List Char),
      p ∈ splitOnChar sep num → ∀ c ∈ p, c ≠ '<' :=
    fun sep p hp c hc => hnochar c (splitOnChar_mem sep num p hp c hc)
  have hfirst : ∀ (sep : Char), sep ≠ ':' ∧ sep ≠ '/' → True := fun _ _ => trivial
  unfold replFn
  by_cases h1 : (num.length == 10 && num.all Char.isDigit) = true
  · rw [if_pos h1]
    exact safeRepl_sayAs_tel num hnochar
  rw [if_neg h1]
  by_cases h2 : (decide (num.length ≤ 3) && num.all Char.isDigit) = true
  · rw [if_pos h2]
    exact safeRepl_sayAs_card num hnochar
  rw [if_neg h2]
  by_cases h3 : dateReMatch num = true
  · rw [if_pos h3]
    split
    case _ d m y heq =>
      apply safeRepl_dateTag
      have hd' : d ∈ splitOnChar '/' num := by rw [heq]; simp
      have hm' : m ∈ splitOnChar '/' num := by rw [heq]; simp
      have hy' : y ∈ splitOnChar '/' num := by rw [heq]; simp
      have hyall : ∀ c ∈ (if (y.length == 2) = true then '2' :: '0' :: y else y),
          c ≠ '<' := by
        by_cases hy2 : (y.length == 2) = true
        · rw [if_pos hy2]
          intro c hc
          rcases List.mem_cons.mp hc with rfl | hc
          · decide
          rcases List.mem_cons.mp hc with rfl | hc
          · decide
          exact hsplitmem '/' y hy' c hc
        · rw [if_neg hy2]
          exact hsplitmem '/' y hy'
      intro c hc
      rcases List.mem_append.mp hc with hc | hc
      · rcases List.mem_append.mp hc with hc | hc
        · exact hsplitmem '/' d hd' c hc
        · rcases List.mem_cons.mp hc with rfl | hc
          · decide
          · exact hsplitmem '/' m hm' c hc
      · rcases List.mem_cons.mp hc with rfl | hc
        · decide
        · exact hyall c hc
    case _ hne' =>
      apply safeRepl_dateTag
      exact hnochar
  rw [if_neg h3]
  by_cases h4 : timeReMatch num = true
  · rw [if_pos h4]
    split
    case _ hh mm heq =>
      have hcd : h0 ≠ ':' := (digit_ne_seps h0 hd0).1
      obtain ⟨p0, ps, hsp, hp0⟩ := splitOnChar_first ':' num h0 hh0 hcd
      rw [heq] at hsp
      injection hsp with he1 he2
      have hhh : hh.head? = some h0 := he1 ▸ hp0
      have hhmem : hh ∈ splitOnChar ':' num := by rw [heq]; simp
      have hmmem : mm ∈ splitOnChar ':' num := by rw [heq]; simp
      have hhc : ∀ c ∈ hh, c ≠ '<' := hsplitmem ':' hh hhmem
      have hhxh : ∀ ch, hh.head? = some ch →
          ch ≠ '<' ∧ ch ≠ 's' ∧ ch ≠ 'p' ∧ ch ≠ 'e' ∧ ch ≠ 'a' ∧ ch ≠ 'k' ∧
            ch ≠ '>' := by
        intro ch hch
        rw [hhh] at hch
        have : h0 = ch := by simpa using hch
        exact this ▸ digit_ne_marks h0 hd0
      split
      · exact safeRepl_dtail hh " o'clock".data hhc hhxh (by decide) (by decide)
          (by decide) (by decide) (by decide) (by decide)
      · exact safeRepl_dtail hh " thirty".data hhc hhxh (by decide) (by decide)
          (by decide) (by decide) (by decide) (by decide)
      · apply safeRepl_timeTag
        intro c hc
        simp only [List.mem_append, List.mem_cons] at hc
        rcases hc with hc | rfl | hc
        · exact hhc c hc
        · decide
        · exact hsplitmem ':' mm hmmem c hc
      · exact safeRepl_token num ht
    case _ hne' => exact safeRepl_token num ht
  rw [if_neg h4]
  by_cases h5 : searchTimeAmPm ctx = true
  · rw [if_pos h5]
    by_cases h5b : ampmReMatch num = true
    · rw [if_pos h5b]
      split
      case _ tp per heq =>
        have hcd : h0 ≠ ':' := (digit_ne_seps h0 hd0).1
        obtain ⟨p0, ps, hsp, hp0⟩ := splitOnChar_first ':' num h0 hh0 hcd
        rw [heq] at hsp
        injection hsp with he1 he2
        have htph : tp.head? = some h0 := he1 ▸ hp0
        have htpmem : tp ∈ splitOnChar ':' num := by rw [heq]; simp
        have htpc : ∀ c ∈ tp, c ≠ '<' := hsplitmem ':' tp htpmem
        have htpex : ∃ hx, tp.head? = some hx ∧ hx.isDigit = true :=
          ⟨h0, htph, hd0⟩
        split
        case _ mm lit hsm =>
          obtain ⟨hmmd, hlit⟩ := searchMinPeriod_spec per mm lit hsm
          have hlow : lowerL lit = "am".data ∨ lowerL lit = "pm".data := by
            rcases hlit with rfl | rfl | rfl | rfl
            · exact Or.inl (by decide)
            · exact Or.inr (by decide)
            · exact Or.inl (by decide)
            · exact Or.inr (by decide)
          by_cases hz : (parseNatQ mm == some 0) = true
          · rw [if_pos hz]
            exact safeRepl_verbal tp [' '] (lowerL lit) htpex htpc
              (by decide) hlow
          rw [if_neg hz]
          by_cases h30 : (parseNatQ mm == some 30) = true
          · rw [if_pos h30]
            rw [List.append_assoc]
            exact safeRepl_verbal tp " thirty ".data (lowerL lit) htpex htpc
              (by decide) hlow
          · rw [if_neg h30]
            have he3 : tp ++ ' ' :: (mm ++ ' ' :: lowerL lit) =
                tp ++ ((' ' :: (mm ++ [' '])) ++ lowerL lit) := by
              simp
            rw [he3]
            refine safeRepl_verbal tp (' ' :: (mm ++ [' '])) (lowerL lit)
              htpex htpc ?_ hlow
            intro c hc
            rcases List.mem_cons.mp hc with rfl | hc
            · decide
            · rcases List.mem_append.mp hc with hc | hc
              · exact (digit_ne_marks c (hmmd c hc)).1
              · have : c = ' ' := by simpa using hc
                rw [this]
                decide
        case _ => exact safeRepl_token num ht
      case _ hne' => exact safeRepl_token num ht
    · rw [if_neg h5b]
      exact safeRepl_token num ht
  rw [if_neg h5]
  by_cases h6 : searchRoom (lowerL ctx) = true
  · rw [if_pos h6]
    exact safeRepl_sayAs_chars num hnochar
  rw [if_neg h6]
  by_cases h7 : (decide (num.length ≤ 4) && num.all Char.isDigit) = true
  · rw [if_pos h7]
    by_cases ha : num = "500".data
    · rw [if_pos ha]; decide
    rw [if_neg ha]
    by_cases hb : num = "200".data
    · rw [if_pos hb]; decide
    rw [if_neg hb]
    by_cases hcn : num = "100".data
    · rw [if_pos hcn]; decide
    rw [if_neg hcn]
    by_cases hdn : num = "1000".data
    · rw [if_pos hdn]; decide
    rw [if_neg hdn]
    exact safeRepl_sayAs_card num hnochar
  · rw [if_neg h7]
    exact safeRepl_sayAs_card num hnochar

/-! ### Token shape of the matches of the `repl`-driven passes -/

theorem digit_allowed (c : Char) (h : c.isDigit = true) : allowedTok c = true := by
  simp [allowedTok, h]

theorem space_allowed (c : Char) (h : isSpaceC c = true) : allowedTok c = true := by
  simp [allowedTok, h]

theorem tokenOk_build (num : List Char) (hne : num ≠ [])
    (hall : ∀ c ∈ num, allowedTok c = true)
    (hhd : ∃ h0, num.head? = some h0 ∧ h0.isDigit = true)
    (hlast : ∃ z, num.getLast? = some z ∧ (z.isDigit = true ∨ z = 'm' ∨ z = 'M')) :
    tokenOk num = true := by
  obtain ⟨h0, hh0, hd0⟩ := hhd
  obtain ⟨z, hz, hdz⟩ := hlast
  simp only [tokenOk, Bool.and_eq_true, List.all_eq_true, Bool.not_eq_true']
  refine ⟨⟨⟨?_, ?_⟩, hall⟩, ?_⟩
  · simp [List.isEmpty_eq_true, hne]
  · rw [hh0]
    exact hd0
  · rw [hz]
    rcases hdz with h | h | h
    · simp [h]
    · simp [h]
    · simp [h]

theorem takeDigits_split :
    ∀ (n : Nat) (s d r : List Char), takeDigits n s = some (d, r) →
      s = d ++ r ∧ d.length = n := by
  intro n
  induction n with
  | zero =>
    intro s d r h
    simp only [takeDigits, Option.some.injEq, Prod.mk.injEq] at h
    simp [← h.1, ← h.2]
  | succ n ih =>
    intro s d r h
    cases s with
    | nil => simp [takeDigits] at h
    | cons a t =>
      rw [takeDigits] at h
      by_cases hd : a.isDigit = true
      · rw [if_pos hd] at h
        cases ht : takeDigits n t with
        | none => rw [ht] at h; simp at h
        | some p =>
          rw [ht] at h
          obtain ⟨d', r'⟩ := p
          simp only [Option.map_some', Option.some.injEq, Prod.mk.injEq] at h
          obtain ⟨hd1, hr1⟩ := h
          obtain ⟨hs, hl⟩ := ih t d' r' ht
          subst hr1
          rw [← hd1]
          simp [hs, hl]
      · rw [if_neg hd] at h
        simp at h

theorem ampmLit_split (s lit r : List Char) (h : ampmLit s = some (lit, r)) :
    s = lit ++ r ∧ lit.length = 2 ∧ (∀ c ∈ lit, allowedTok c = true) ∧
      (lit.getLast? = some 'M' ∨ lit.getLast? = some 'm') := by
  unfold ampmLit at h
  split at h <;>
    first
      | (simp only [Option.some.injEq, Prod.mk.injEq] at h
         obtain ⟨hl, hr⟩ := h
         subst hl
         subst hr
         exact ⟨rfl, by decide, by decide, by decide⟩)
      | simp at h

theorem take_len_append (a b : List Char) (n : Nat) :
    (a ++ b).take (a.length + n) = a ++ b.take n := by
  induction a with
  | nil => simp
  | cons c a' ih =>
    have harith : (c :: a').length + n = (a'.length + n) + 1 := by
      simp [List.length_cons]
      omega
    rw [harith]
    simp only [List.cons_append, List.take_succ_cons]
    rw [ih]

theorem dateTry_spec (l1 l2 l3 : Nat) (s : List Char) (len : Nat)
    (h : dateTry l1 l2 l3 s = some len) :
    ∃ d1 d2 d3 r3, s = d1 ++ '/' :: (d2 ++ '/' :: (d3 ++ r3)) ∧
      len = l1 + 1 + l2 + 1 + l3 ∧ d1.length = l1 ∧ d2.length = l2 ∧
      d3.length = l3 ∧ (∀ c ∈ d1, c.isDigit = true) ∧
      (∀ c ∈ d2, c.isDigit = true) ∧ (∀ c ∈ d3, c.isDigit = true) := by
  unfold dateTry at h
  split at h <;> try exact Option.noConfusion h
  rename_i d1 r1 heq1
  split at h <;> try exact Option.noConfusion h
  rename_i d2 r2 heq2
  split at h <;> try exact Option.noConfusion h
  rename_i d3 r3 heq3
  split at h <;> try exact Option.noConfusion h
  simp only [Option.some.injEq] at h
  obtain ⟨hs1, hl1⟩ := takeDigits_split l1 s d1 _ heq1
  obtain ⟨hs2, hl2⟩ := takeDigits_split l2 r1 d2 _ heq2
  obtain ⟨hs3, hl3⟩ := takeDigits_split l3 r2 d3 _ heq3
  refine ⟨d1, d2, d3, r3, ?_, h.symm, hl1, hl2, hl3,
    takeDigits_digits l1 s d1 _ heq1, takeDigits_digits l2 r1 d2 _ heq2,
    takeDigits_digits l3 r2 d3 _ heq3⟩
  rw [hs1, hs2, hs3]

theorem dateMatchLen_cases (s : List Char) (len : Nat)
    (h : dateMatchLen s = some len) :
    ∃ c ∈ dateCombos, dateTry c.1 c.2.1 c.2.2 s = some len := by
  unfold dateMatchLen at h
  generalize dateCombos = combos at h ⊢
  induction combos with
  | nil => simp at h
  | cons c0 cs ih =>
    simp only [List.foldr] at h
    cases h0 : dateTry c0.1 c0.2.1 c0.2.2 s with
    | some x =>
      rw [h0] at h
      simp only [Option.orElse] at h
      exact ⟨c0, List.mem_cons_self _ _, by rw [h0, h]⟩
    | none =>
      rw [h0] at h
      simp only [Option.orElse] at h
      obtain ⟨c, hc, hd⟩ := ih h
      exact ⟨c, List.mem_cons_of_mem _ hc, hd⟩

theorem ampmTry_spec (l1 : Nat) (s : List Char) (len : Nat)
    (h : ampmTry l1 s = some len) :
    ∃ d1 d2 ws lit r4,
      s = d1 ++ ':' :: (d2 ++ (ws ++ (lit ++ r4))) ∧
      len = l1 + 1 + 2 + ws.length + 2 ∧ d1.length = l1 ∧ d2.length = 2 ∧
      (∀ c ∈ d1, c.isDigit = true) ∧ (∀ c ∈ d2, c.isDigit = true) ∧
      (∀ c ∈ ws, isSpaceC c = true) ∧ lit.length = 2 ∧
      (∀ c ∈ lit, allowedTok c = true) ∧
      (lit.getLast? = some 'M' ∨ lit.getLast? = some 'm') := by
  unfold ampmTry at h
  split at h <;> try exact Option.noConfusion h
  rename_i d1 r1 heq1
  split at h <;> try exact Option.noConfusion h
  rename_i d2 r2 heq2
  split at h <;> try exact Option.noConfusion h
  rename_i lit r4 heq3
  split at h <;> try exact Option.noConfusion h
  simp only [Option.some.injEq] at h
  obtain ⟨hs1, hl1⟩ := takeDigits_split l1 s d1 _ heq1
  obtain ⟨hs2, hl2⟩ := takeDigits_split 2 r1 d2 _ heq2
  obtain ⟨hsl, hll, hla, hlm⟩ := ampmLit_split _ lit r4 heq3
  refine ⟨d1, d2, r2.takeWhile isSpaceC, lit, r4, ?_, ?_, hl1, hl2,
    takeDigits_digits l1 s d1 _ heq1, takeDigits_digits 2 r1 d2 _ heq2,
    fun c hc => mem_takeWhile_pred isSpaceC c r2 hc, hll, hla, hlm⟩
  · have hr2 : r2 = r2.takeWhile isSpaceC ++ (lit ++ r4) := by
      conv_lhs => rw [← List.takeWhile_append_dropWhile isSpaceC r2]
      rw [hsl]
    rw [hs1, hs2]
    conv_lhs => rw [hr2]
  · rw [← h]

theorem hhmmTry_spec (l1 : Nat) (s : List Char) (len : Nat)
    (h : hhmmTry l1 s = some len) :
    ∃ d1 d2 r2, s = d1 ++ ':' :: (d2 ++ r2) ∧ len = l1 + 3 ∧
      d1.length = l1 ∧ d2.length = 2 ∧
      (∀ c ∈ d1, c.isDigit = true) ∧ (∀ c ∈ d2, c.isDigit = true) := by
  unfold hhmmTry at h
  split at h <;> try exact Option.noConfusion h
  rename_i d1 r1 heq1
  split at h <;> try exact Option.noConfusion h
  rename_i d2 r2 heq2
  split at h <;> try exact Option.noConfusion h
  simp only [Option.some.injEq] at h
  obtain ⟨hs1, hl1⟩ := takeDigits_split l1 s d1 _ heq1
  obtain ⟨hs2, hl2⟩ := takeDigits_split 2 r1 d2 _ heq2
  refine ⟨d1, d2, r2, ?_, h.symm, hl1, hl2,
    takeDigits_digits l1 s d1 _ heq1, takeDigits_digits 2 r1 d2 _ heq2⟩
  rw [hs1, hs2]

/-! ### The eleven passes only emit safe replacements -/

theorem not_isEmpty_ne (l : List Char) (h : ¬l.isEmpty = true) : l ≠ [] := by
  cases l
  · simp at h
  · simp

theorem ne_of_len_pos (l : List Char) (n : Nat) (hl : l.length = n) (h : 1 ≤ n) :
    l ≠ [] := by
  intro habs
  rw [habs] at hl
  simp at hl
  omega

theorem tokenOk_digits (d : List Char) (hne : d ≠ [])
    (hd : ∀ c ∈ d, c.isDigit = true) : tokenOk d = true := by
  obtain ⟨x, t, rfl⟩ := List.exists_cons_of_ne_nil hne
  obtain ⟨z, hz, hzm⟩ := getLast?_of_ne_nil (x :: t) hne
  refine tokenOk_build _ hne (fun c hc => digit_allowed c (hd c hc))
    ⟨x, rfl, hd x (List.mem_cons_self x t)⟩ ⟨z, hz, Or.inl (hd z hzm)⟩

theorem safeRepl_rupees (ds : List Char) (hne : ds ≠ [])
    (hdig : ∀ c ∈ ds, c.isDigit = true) :
    safeRepl ("rupees ".data ++ ds) = true := by
  refine safeRepl_simple _ (by simp) (fun c hc => ?_) (fun x hx => ?_)
    (fun z hz => ?_)
  · rcases List.mem_append.mp hc with hc | hc
    · exact (by decide : ∀ y ∈ "rupees ".data, y ≠ '<') c hc
    · exact (digit_ne_marks c (hdig c hc)).1
  · have hr : ("rupees ".data ++ ds).head? = some 'r' := rfl
    rw [hr] at hx
    have hxr : x = 'r' := by simpa using hx.symm
    rw [hxr]
    refine ⟨?_, ?_, ?_, ?_, ?_, ?_, ?_⟩ <;> decide
  · rw [getLast?_append_right _ ds hne] at hz
    obtain ⟨z', hz', hmem⟩ := getLast?_of_ne_nil ds hne
    have hzz : z = z' := by rw [hz'] at hz; simpa using hz.symm
    have hm := digit_ne_marks z' (hdig z' hmem)
    rw [hzz]
    exact ⟨hm.1, hm.2.1, hm.2.2.1, hm.2.2.2.1, hm.2.2.2.2.1, hm.2.2.2.2.2.1⟩

theorem safeF_mRsDot : SafeF mRsDot := by
  intro prev s r n hm
  unfold mRsDot at hm
  split at hm <;> try exact Option.noConfusion hm
  rename_i t
  dsimp only at hm
  split at hm <;> try exact Option.noConfusion hm
  rename_i hds
  simp only [Option.some.injEq, Prod.mk.injEq] at hm
  rw [← hm.1]
  exact safeRepl_rupees _ (not_isEmpty_ne _ hds)
    (fun c hc => mem_takeWhile_pred _ c _ hc)

theorem safeF_mRsBare : SafeF mRsBare := by
  intro prev s r n hm
  unfold mRsBare at hm
  split at hm <;> try exact Option.noConfusion hm
  rename_i t
  dsimp only at hm
  split at hm <;> try exact Option.noConfusion hm
  rename_i hds
  simp only [Option.some.injEq, Prod.mk.injEq] at hm
  rw [← hm.1]
  exact safeRepl_rupees _ (not_isEmpty_ne _ hds)
    (fun c hc => mem_takeWhile_pred _ c _ hc)

theorem safeF_mINR : SafeF mINR := by
  intro prev s r n hm
  unfold mINR at hm
  split at hm <;> try exact Option.noConfusion hm
  rename_i t
  dsimp only at hm
  split at hm <;> try exact Option.noConfusion hm
  rename_i hds
  simp only [Option.some.injEq, Prod.mk.injEq] at hm
  rw [← hm.1]
  exact safeRepl_rupees _ (not_isEmpty_ne _ hds)
    (fun c hc => mem_takeWhile_pred _ c _ hc)

theorem safeF_mRupeeSign : SafeF mRupeeSign := by
  intro prev s r n hm
  unfold mRupeeSign at hm
  split at hm <;> try exact Option.noConfusion hm
  rename_i t
  dsimp only at hm
  split at hm <;> try exact Option.noConfusion hm
  rename_i hds
  simp only [Option.some.injEq, Prod.mk.injEq] at hm
  rw [← hm.1]
  exact safeRepl_rupees _ (not_isEmpty_ne _ hds)
    (fun c hc => mem_takeWhile_pred _ c _ hc)

theorem safeF_mDr : SafeF mDr := by
  intro prev s r n hm
  unfold mDr at hm
  split at hm <;> try exact Option.noConfusion hm
  rename_i t
  dsimp only at hm
  split at hm <;> try exact Option.noConfusion hm
  simp only [Option.some.injEq, Prod.mk.injEq] at hm
  rw [← hm.1]
  decide

theorem safeF_mNum (ctx : List Char) : SafeF (mNum ctx) := by
  intro prev s r n hm
  unfold mNum at hm
  split at hm <;> try exact Option.noConfusion hm
  split at hm <;> try exact Option.noConfusion hm
  rename_i c cs
  dsimp only at hm
  split at hm <;> try exact Option.noConfusion hm
  rename_i hcdig
  split at hm <;> try exact Option.noConfusion hm
  simp only [Option.some.injEq, Prod.mk.injEq] at hm
  rw [← hm.1]
  apply safeRepl_replFn
  refine tokenOk_digits _ ?_ (fun d hd => mem_takeWhile_pred _ d _ hd)
  simp [List.takeWhile_cons, hcdig]

theorem safeF_mThreePM : SafeF mThreePM := by
  intro prev s r n hm
  unfold mThreePM at hm
  split at hm <;> try exact Option.noConfusion hm
  rename_i d t
  split at hm <;> try exact Option.noConfusion hm
  split at hm <;> try exact Option.noConfusion hm
  all_goals
    simp only [Option.some.injEq, Prod.mk.injEq] at hm
  all_goals rw [← hm.1]
  all_goals decide

theorem safeF_mTwoThirtyPM : SafeF mTwoThirtyPM := by
  intro prev s r n hm
  unfold mTwoThirtyPM at hm
  split at hm <;> try exact Option.noConfusion hm
  rename_i d t
  split at hm <;> try exact Option.noConfusion hm
  split at hm <;> try exact Option.noConfusion hm
  all_goals
    simp only [Option.some.injEq, Prod.mk.injEq] at hm
  all_goals rw [← hm.1]
  all_goals decide

theorem getLast?_cons_append (c : Char) (X : List Char) (h : X ≠ []) :
    (c :: X).getLast? = X.getLast? :=
  getLast?_append_right [c] X h

theorem safeF_mDate (ctx : List Char) : SafeF (mDate ctx) := by
  intro prev s r n hm
  unfold mDate at hm
  split at hm <;> try exact Option.noConfusion hm
  split at hm <;> try exact Option.noConfusion hm
  rename_i len hlen
  simp only [Option.some.injEq, Prod.mk.injEq] at hm
  rw [← hm.1]
  apply safeRepl_replFn
  obtain ⟨cmb, hcmb, htry⟩ := dateMatchLen_cases s len hlen
  have hb := (by decide : ∀ c ∈ dateCombos,
    1 ≤ c.1 ∧ 1 ≤ c.2.1 ∧ 1 ≤ c.2.2) cmb hcmb
  obtain ⟨d1, d2, d3, r3, hs, hlen', hL1, hL2, hL3, hD1, hD2, hD3⟩ :=
    dateTry_spec cmb.1 cmb.2.1 cmb.2.2 s len htry
  have hd1ne : d1 ≠ [] := ne_of_len_pos d1 cmb.1 hL1 hb.1
  have hd3ne : d3 ≠ [] := ne_of_len_pos d3 cmb.2.2 hL3 hb.2.2
  have htake : s.take len = d1 ++ '/' :: (d2 ++ '/' :: d3) := by
    rw [hs]
    have harr : len = d1.length + (1 + (d2.length + (1 + d3.length))) := by
      omega
    rw [harr, take_len_append]
    congr 1
    rw [Nat.add_comm 1 (d2.length + (1 + d3.length)), List.take_succ_cons]
    congr 1
    rw [take_len_append]
    congr 1
    rw [Nat.add_comm 1 d3.length, List.take_succ_cons]
    congr 1
    exact List.take_left d3 r3
  rw [htake]
  obtain ⟨x, t, hxt⟩ := List.exists_cons_of_ne_nil hd1ne
  obtain ⟨z, hz, hzm⟩ := getLast?_of_ne_nil d3 hd3ne
  apply tokenOk_build
  · intro habs
    exact hd1ne (List.append_eq_nil.mp habs).1
  · intro c hc
    rcases List.mem_append.mp hc with hc | hc
    · exact digit_allowed c (hD1 c hc)
    · rcases List.mem_cons.mp hc with rfl | hc
      · decide
      · rcases List.mem_append.mp hc with hc | hc
        · exact digit_allowed c (hD2 c hc)
        · rcases List.mem_cons.mp hc with rfl | hc
          · decide
          · exact digit_allowed c (hD3 c hc)
  · refine ⟨x, ?_, hD1 x (by rw [hxt]; exact List.mem_cons_self x t)⟩
    rw [hxt]
    rfl
  · refine ⟨z, ?_, Or.inl (hD3 z hzm)⟩
    rw [getLast?_append_right _ _ (by simp),
      getLast?_cons_append _ _ (by simp [hd3ne]),
      getLast?_append_right _ _ (by simp [hd3ne]),
      getLast?_cons_append _ _ hd3ne]
    exact hz

theorem safeF_mAmPm (ctx : List Char) : SafeF (mAmPm ctx) := by
  intro prev s r n hm
  unfold mAmPm at hm
  split at hm <;> try exact Option.noConfusion hm
  split at hm <;> try exact Option.noConfusion hm
  rename_i len hlen
  simp only [Option.some.injEq, Prod.mk.injEq] at hm
  rw [← hm.1]
  apply safeRepl_replFn
  have hex : ∃ l1, 1 ≤ l1 ∧ ampmTry l1 s = some len := by
    cases h2 : ampmTry 2 s with
    | some x =>
      rw [h2] at hlen
      simp only [Option.orElse] at hlen
      have hx : x = len := by simpa using hlen
      exact ⟨2, by omega, by rw [h2, hx]⟩
    | none =>
      rw [h2] at hlen
      simp only [Option.orElse] at hlen
      exact ⟨1, by omega, hlen⟩
  obtain ⟨l1, hl1b, htry⟩ := hex
  obtain ⟨d1, d2, ws, lit, r4, hs, hlen', hL1, hL2, hD1, hD2, hWS, hll, hla,
    hlm⟩ := ampmTry_spec l1 s len htry
  have hd1ne : d1 ≠ [] := ne_of_len_pos d1 l1 hL1 hl1b
  have hlitne : lit ≠ [] := ne_of_len_pos lit 2 hll (by omega)
  have htake : s.take len = d1 ++ ':' :: (d2 ++ (ws ++ lit)) := by
    rw [hs]
    have harr : len = d1.length + (1 + (d2.length + (ws.length + lit.length))) := by
      omega
    rw [harr, take_len_append]
    congr 1
    rw [Nat.add_comm 1 (d2.length + (ws.length + lit.length)),
      List.take_succ_cons]
    congr 1
    rw [take_len_append]
    congr 1
    rw [take_len_append]
    congr 1
    exact List.take_left lit r4
  rw [htake]
  obtain ⟨x, t, hxt⟩ := List.exists_cons_of_ne_nil hd1ne
  apply tokenOk_build
  · intro habs
    exact hd1ne (List.append_eq_nil.mp habs).1
  · intro c hc
    rcases List.mem_append.mp hc with hc | hc
    · exact digit_allowed c (hD1 c hc)
    · rcases List.mem_cons.mp hc with rfl | hc
      · decide
      · rcases List.mem_append.mp hc with hc | hc
        · exact digit_allowed c (hD2 c hc)
        · rcases List.mem_append.mp hc with hc | hc
          · exact space_allowed c (hWS c hc)
          · exact hla c hc
  · refine ⟨x, ?_, hD1 x (by rw [hxt]; exact List.mem_cons_self x t)⟩
    rw [hxt]
    rfl
  · have hwl : ws ++ lit ≠ [] := by
      intro habs
      exact hlitne (List.append_eq_nil.mp habs).2
    have hgl : (d1 ++ ':' :: (d2 ++ (ws ++ lit))).getLast? = lit.getLast? := by
      rw [getLast?_append_right _ _ (by simp),
        getLast?_cons_append _ _ (by simp [hwl]),
        getLast?_append_right _ _ hwl,
        getLast?_append_right _ _ hlitne]
    rcases hlm with hM | hM
    · exact ⟨'M', by rw [hgl, hM], Or.inr (Or.inr rfl)⟩
    · exact ⟨'m', by rw [hgl, hM], Or.inr (Or.inl rfl)⟩

theorem safeF_mHHMM (ctx : List Char) : SafeF (mHHMM ctx) := by
  intro prev s r n hm
  unfold mHHMM at hm
  split at hm <;> try exact Option.noConfusion hm
  split at hm <;> try exact Option.noConfusion hm
  rename_i len hlen
  simp only [Option.some.injEq, Prod.mk.injEq] at hm
  rw [← hm.1]
  apply safeRepl_replFn
  have hex : ∃ l1, 1 ≤ l1 ∧ hhmmTry l1 s = some len := by
    cases h2 : hhmmTry 2 s with
    | some x =>
      rw [h2] at hlen
      simp only [Option.orElse] at hlen
      have hx : x = len := by simpa using hlen
      exact ⟨2, by omega, by rw [h2, hx]⟩
    | none =>
      rw [h2] at hlen
      simp only [Option.orElse] at hlen
      exact ⟨1, by omega, hlen⟩
  obtain ⟨l1, hl1b, htry⟩ := hex
  obtain ⟨d1, d2, r2, hs, hlen', hL1, hL2, hD1, hD2⟩ := hhmmTry_spec l1 s len htry
  have hd1ne : d1 ≠ [] := ne_of_len_pos d1 l1 hL1 hl1b
  have hd2ne : d2 ≠ [] := ne_of_len_pos d2 2 hL2 (by omega)
  have htake : s.take len = d1 ++ ':' :: d2 := by
    rw [hs]
    have harr : len = d1.length + (1 + d2.length) := by omega
    rw [harr, take_len_append]
    congr 1
    rw [Nat.add_comm 1 d2.length, List.take_succ_cons]
    congr 1
    exact List.take_left d2 r2
  rw [htake]
  obtain ⟨x, t, hxt⟩ := List.exists_cons_of_ne_nil hd1ne
  obtain ⟨z, hz, hzm⟩ := getLast?_of_ne_nil d2 hd2ne
  apply tokenOk_build
  · intro habs
    exact hd1ne (List.append_eq_nil.mp habs).1
  · intro c hc
    rcases List.mem_append.mp hc with hc | hc
    · exact digit_allowed c (hD1 c hc)
    · rcases List.mem_cons.mp hc with rfl | hc
      · decide
      · exact digit_allowed c (hD2 c hc)
  · refine ⟨x, ?_, hD1 x (by rw [hxt]; exact List.mem_cons_self x t)⟩
    rw [hxt]
    rfl
  · refine ⟨z, ?_, Or.inl (hD2 z hzm)⟩
    rw [getLast?_append_right _ _ (by simp),
      getLast?_cons_append _ _ hd2ne]
    exact hz

/-! ### Straddle killers and segmentation lemmas -/

theorem spkSplits_right_head :
    ∀ pr ∈ spkSplits,
      pr.2.head? ∈ [some 's', some 'p', some 'e', some 'a', some 'k',
        some '>'] := by decide

theorem straddle_kill_last (a b : List Char) (z : Char)
    (ha : a.getLast? = some z)
    (hz : z ≠ '<' ∧ z ≠ 's' ∧ z ≠ 'p' ∧ z ≠ 'e' ∧ z ≠ 'a' ∧ z ≠ 'k') :
    spkStraddle a b = false := by
  cases hs : spkStraddle a b
  · rfl
  · exfalso
    unfold spkStraddle at hs
    rw [List.any_eq_true] at hs
    obtain ⟨pr, hm, hpr⟩ := hs
    simp only [Bool.and_eq_true] at hpr
    obtain ⟨hne1, _, hlast⟩ := spkSplits_left_struct pr hm
    have hgl := hasSfx_last pr.1 a hpr.1 hne1
    rw [ha] at hgl
    rw [← hgl] at hlast
    exact last_not_marks z hz hlast

theorem straddle_kill_head (a b : List Char) (x : Char)
    (hb : b.head? = some x)
    (hx : x ≠ 's' ∧ x ≠ 'p' ∧ x ≠ 'e' ∧ x ≠ 'a' ∧ x ≠ 'k' ∧ x ≠ '>') :
    spkStraddle a b = false := by
  cases hs : spkStraddle a b
  · rfl
  · exfalso
    unfold spkStraddle at hs
    rw [List.any_eq_true] at hs
    obtain ⟨pr, hm, hpr⟩ := hs
    simp only [Bool.and_eq_true] at hpr
    have hh := spkSplits_right_head pr hm
    have hp2ne : pr.2 ≠ [] := by
      intro habs
      rw [habs] at hh
      simp at hh
    obtain ⟨ph, pt, hpp⟩ := List.exists_cons_of_ne_nil hp2ne
    have hbh := hasPfx_head ph pt b (hpp ▸ hpr.2)
    rw [hb] at hbh
    have hxp : x = ph := by simpa using hbh
    rw [hpp] at hh
    simp only [List.head?_cons, List.mem_cons, Option.some.injEq] at hh
    rcases hh with h | h | h | h | h | h | h
    · exact hx.1 (hxp.trans h)
    · exact hx.2.1 (hxp.trans h)
    · exact hx.2.2.1 (hxp.trans h)
    · exact hx.2.2.2.1 (hxp.trans h)
    · exact hx.2.2.2.2.1 (hxp.trans h)
    · exact hx.2.2.2.2.2 (hxp.trans h)
    · simp at h

theorem occursIn_dropWhile (p : Char → Bool) :
    ∀ t : List Char, occursIn spk (t.dropWhile p) = true →
      occursIn spk t = true := by
  intro t
  induction t with
  | nil => intro h; simpa using h
  | cons c cs ih =>
    intro h
    rw [List.dropWhile] at h
    by_cases hp : p c = true
    · rw [hp] at h
      simp only [occursIn, Bool.or_eq_true]
      exact Or.inr (ih h)
    · rw [Bool.not_eq_true] at hp
      rw [hp] at h
      exact h

theorem occursIn_stripL (t : List Char) (h : occursIn spk (stripL t) = true) :
    occursIn spk t = true := by
  unfold stripL at h
  set u := t.dropWhile isSpaceC with hu
  have hdecomp : (u.reverse.dropWhile isSpaceC).reverse ++
      (u.reverse.takeWhile isSpaceC).reverse = u := by
    rw [← List.reverse_append, List.takeWhile_append_dropWhile, List.reverse_reverse]
  have h1 : occursIn spk u = true := by
    rw [← hdecomp]
    exact occursIn_append_l _ _ _ h
  exact occursIn_dropWhile isSpaceC t h1

theorem splitSent_no_spk :
    ∀ (fuel : Nat) (prev : Option Char) (acc s p : List Char),
      p ∈ splitSent fuel prev acc s → occursIn spk p = true →
      occursIn spk (acc.reverse ++ s) = true := by
  intro fuel
  induction fuel with
  | zero =>
    intro prev acc s p hp hocc
    simp only [splitSent, List.mem_singleton] at hp
    subst hp
    exact hocc
  | succ n ih =>
    intro prev acc s p hp hocc
    cases s with
    | nil =>
      simp only [splitSent, List.mem_singleton] at hp
      subst hp
      exact occursIn_append_l _ _ _ hocc
    | cons c cs =>
      rw [splitSent] at hp
      by_cases hcut : (isTermO prev && isSpaceC c) = true
      · rw [if_pos hcut] at hp
        rcases List.mem_cons.mp hp with rfl | hp
        · exact occursIn_append_l _ _ _ hocc
        · have hrec := ih none [] ((c :: cs).dropWhile isSpaceC) p hp hocc
          simp only [List.reverse_nil, List.nil_append] at hrec
          exact occursIn_append_r _ _ _ (occursIn_dropWhile isSpaceC _ hrec)
      · rw [if_neg hcut] at hp
        have hrec := ih (some c) (c :: acc) cs p hp hocc
        rw [List.reverse_cons, List.append_assoc] at hrec
        simpa using hrec

theorem sentencePieces_no_spk (t p : List Char) (hp : p ∈ sentencePieces t)
    (hocc : occursIn spk p = true) : occursIn spk t = true := by
  unfold sentencePieces at hp
  have hp' := List.mem_of_mem_filter hp
  have := splitSent_no_spk t.length none [] t p hp' hocc
  simpa using this

/-! ### Composition: the full pipeline never creates a literal `<speak>` -/

theorem no_spk_append (a b : List Char)
    (ha : occursIn spk a = false) (hb : occursIn spk b = false)
    (hs : spkStraddle a b = false) : occursIn spk (a ++ b) = false := by
  cases h : occursIn spk (a ++ b)
  · rfl
  · exfalso
    rcases occursIn_spk_append a b h with h1 | h1 | h1
    · rw [ha] at h1; exact Bool.noConfusion h1
    · rw [hb] at h1; exact Bool.noConfusion h1
    · rw [hs] at h1; exact Bool.noConfusion h1

/-- Pulling an occurrence of `<speak>` back through all eleven rewrite
passes of `interpret_numbers`. -/
theorem interp_pull (s : String)
    (h : occursIn spk (interpret_numbers s).data = true) :
    occursIn spk s.data = true := by
  unfold interpret_numbers at h
  dsimp only at h
  exact runPass_no_spk mRsDot safeF_mRsDot _
    (runPass_no_spk mRsBare safeF_mRsBare _
      (runPass_no_spk mINR safeF_mINR _
        (runPass_no_spk mRupeeSign safeF_mRupeeSign _
          (runPass_no_spk mDr safeF_mDr _
            (runPass_no_spk _ (safeF_mNum _) _
              (runPass_no_spk _ (safeF_mDate _) _
                (runPass_no_spk _ (safeF_mAmPm _) _
                  (runPass_no_spk _ (safeF_mHHMM _) _
                    (runPass_no_spk mThreePM safeF_mThreePM _
                      (runPass_no_spk mTwoThirtyPM safeF_mTwoThirtyPM _ h))))))))))

theorem safeF_pronMatcher (e : PronEntry)
    (hs : safeRepl (phonemeTag e) = true) : SafeF (pronMatcher e) := by
  intro prev s r n hm
  unfold pronMatcher at hm
  split at hm
  · exact Option.noConfusion hm
  · split at hm
    · injection hm with hm1
      injection hm1 with hr hn
      rw [← hr]
      exact hs
    · exact Option.noConfusion hm

theorem pronStep_pull (lang : String) (s : List Char) (e : PronEntry)
    (hs : safeRepl (phonemeTag e) = true)
    (h : occursIn spk (pronStep lang s e) = true) :
    occursIn spk s = true := by
  unfold pronStep at h
  split at h
  · exact h
  · split at h
    · split at h
      · exact h
      · exact runPass_no_spk _ (safeF_pronMatcher e hs) _ h
    · exact h

theorem pronFold_pull (lang : String) :
    ∀ (L : List PronEntry) (s : List Char),
      (∀ e ∈ L, safeRepl (phonemeTag e) = true) →
      occursIn spk (L.foldl (pronStep lang) s) = true →
      occursIn spk s = true := by
  intro L
  induction L with
  | nil => intro s _ h; exact h
  | cons e t ih =>
    intro s hall h
    rw [List.foldl_cons] at h
    exact pronStep_pull lang s e (hall e (List.mem_cons_self e t))
      (ih _ (fun d hd => hall d (List.mem_cons_of_mem e hd)) h)

/-- Every phoneme tag built from any dictionary entry is a safe
replacement. -/
theorem allPron_safe (lang : String) :
    ∀ e ∈ allPron lang, safeRepl (phonemeTag e) = true := by
  have hmain : ∀ e ∈ PRONUNCIATION_DICTIONARY,
      safeRepl (phonemeTag e) = true := by decide
  have hhin : ∀ e ∈ HINDI_PRONUNCIATIONS,
      safeRepl (phonemeTag e) = true := by decide
  have htam : ∀ e ∈ TAMIL_PRONUNCIATIONS,
      safeRepl (phonemeTag e) = true := by decide
  intro e he
  unfold allPron at he
  rw [List.mem_append] at he
  rcases he with he | he
  · exact hmain e he
  · split at he
    · exact hhin e he
    · split at he
      · exact htam e he
      · simp at he

theorem apron_pull (lang : String) (s : String)
    (h : occursIn spk (applyPronunciations lang s).data = true) :
    occursIn spk s.data = true := by
  unfold applyPronunciations at h
  dsimp only at h
  exact pronFold_pull lang (allPron lang) s.data (allPron_safe lang) h

theorem append_right_ne_nil (a b : List Char) (hb : b ≠ []) : a ++ b ≠ [] := by
  intro hc
  exact hb (List.append_eq_nil.mp hc).2

theorem getLast?_sandwich (a ms c : List Char) (hc : c ≠ []) :
    (a ++ (ms ++ c)).getLast? = c.getLast? := by
  rw [getLast?_append_right a (ms ++ c) (append_right_ne_nil ms c hc),
    getLast?_append_right ms c hc]

theorem getLast?_close_emph (a ms : List Char) :
    (a ++ (ms ++ "</prosody></emphasis>".data)).getLast? = some '>' := by
  rw [getLast?_sandwich a ms "</prosody></emphasis>".data (by decide)]
  decide

theorem getLast?_close_pros (a ms : List Char) :
    (a ++ (ms ++ "</prosody>".data)).getLast? = some '>' := by
  rw [getLast?_sandwich a ms "</prosody>".data (by decide)]
  decide

/-- Every prosody template ends with the character `>`. -/
theorem prosodyWrap_last (tone : String) (ms : List Char) :
    (prosodyWrap tone ms).getLast? = some '>' := by
  unfold prosodyWrap
  split_ifs
  · exact getLast?_close_emph _ ms
  · exact getLast?_close_pros _ ms
  · exact getLast?_close_pros _ ms
  · exact getLast?_close_pros _ ms
  · exact getLast?_close_pros _ ms

/-- A prosody template cannot create `<speak>` around safe contents. -/
theorem prosodyWrap_no_spk (tone : String) (ms : List Char)
    (hms : occursIn spk ms = false) :
    occursIn spk (prosodyWrap tone ms) = false := by
  unfold prosodyWrap
  split_ifs
  · refine no_spk_append _ _ ?_ (no_spk_append _ _ hms ?_ ?_) ?_
    · decide
    · decide
    · exact straddle_kill_head ms "</prosody></emphasis>".data '<'
        (by decide) (by decide)
    · exact straddle_kill_last
        "<emphasis level=\"strong\"><prosody rate=\"110%\" pitch=\"+5%\" volume=\"loud\">".data
        _ '>' (by decide) (by decide)
  · refine no_spk_append _ _ ?_ (no_spk_append _ _ hms ?_ ?_) ?_
    · decide
    · decide
    · exact straddle_kill_head ms "</prosody>".data '<' (by decide) (by decide)
    · exact straddle_kill_last
        "<prosody rate=\"90%\" pitch=\"-5%\" volume=\"medium\">".data
        _ '>' (by decide) (by decide)
  · refine no_spk_append _ _ ?_ (no_spk_append _ _ hms ?_ ?_) ?_
    · decide
    · decide
    · exact straddle_kill_head ms "</prosody>".data '<' (by decide) (by decide)
    · exact straddle_kill_last
        "<prosody rate=\"95%\" pitch=\"0%\" volume=\"medium\">".data
        _ '>' (by decide) (by decide)
  · refine no_spk_append _ _ ?_ (no_spk_append _ _ hms ?_ ?_) ?_
    · decide
    · decide
    · exact straddle_kill_head ms "</prosody>".data '<' (by decide) (by decide)
    · exact straddle_kill_last
        "<prosody rate=\"medium\" pitch=\"5%\" volume=\"medium\">".data
        _ '>' (by decide) (by decide)
  · refine no_spk_append _ _ ?_ (no_spk_append _ _ hms ?_ ?_) ?_
    · decide
    · decide
    · exact straddle_kill_head ms "</prosody>".data '<' (by decide) (by decide)
    · exact straddle_kill_last "<prosody rate=\"medium\" pitch=\"0%\">".data
        _ '>' (by decide) (by decide)

/-- Per-sentence processing cannot create `<speak>`. -/
theorem processSentence_no_spk (lang : String) (sn : List Char)
    (h : occursIn spk sn = false) :
    occursIn spk (processSentence lang sn) = false := by
  unfold processSentence
  apply prosodyWrap_no_spk
  cases hocc : occursIn spk
      (applyPronunciations lang (interpret_numbers (String.mk sn))).data
  · rfl
  · exfalso
    have h1 := apron_pull lang _ hocc
    have h2 : occursIn spk sn = true := interp_pull (String.mk sn) h1
    rw [h] at h2
    exact Bool.noConfusion h2

/-- Joining safe `>`-terminated fragments with a safe `>`-terminated
separator cannot create `<speak>`. -/
theorem joinWith_pull (sep : List Char) (hsep : occursIn spk sep = false)
    (hsl : sep.getLast? = some '>') :
    ∀ L : List (List Char),
      (∀ x ∈ L, occursIn spk x = false ∧ x.getLast? = some '>') →
      occursIn spk (joinWith sep L) = false := by
  intro L
  induction L with
  | nil => intro _; rfl
  | cons x t ih =>
    intro hall
    cases t with
    | nil => exact (hall x (List.mem_cons_self x [])).1
    | cons y t2 =>
      show occursIn spk (x ++ (sep ++ joinWith sep (y :: t2))) = false
      have hx := hall x (List.mem_cons_self x _)
      have hrest : ∀ z ∈ y :: t2,
          occursIn spk z = false ∧ z.getLast? = some '>' :=
        fun z hz => hall z (List.mem_cons_of_mem x hz)
      refine no_spk_append _ _ hx.1 ?_
        (straddle_kill_last x _ '>' hx.2 (by decide))
      exact no_spk_append _ _ hsep (ih hrest)
        (straddle_kill_last sep _ '>' hsl (by decide))

/-- The break separator contains no `<speak>` when the duration text is
free of `<`. -/
theorem sep_no_spk (bt : List Char) (hbt : ∀ c ∈ bt, c ≠ '<') :
    occursIn spk ("<break time=\"".data ++ bt ++ "\"/>".data) = false := by
  refine no_spk_append _ _ ?_ (by decide)
    (straddle_kill_head _ _ '"' (by decide) (by decide))
  exact no_spk_append _ _ (by decide) (occursIn_no_lt bt hbt)
    (straddle_kill_last _ _ '"' (by decide) (by decide))

theorem sep_last (bt : List Char) :
    ("<break time=\"".data ++ bt ++ "\"/>".data).getLast? = some '>' := by
  rw [getLast?_append_right ("<break time=\"".data ++ bt) "\"/>".data
    (by decide)]
  decide

theorem langCode_cases (lang : String) :
    langCode lang = "en-IN" ∨ langCode lang = "hi-IN" ∨
      langCode lang = "ta-IN" ∨ langCode lang = "te-IN" := by
  unfold langCode
  split_ifs
  · exact Or.inl rfl
  · exact Or.inr (Or.inl rfl)
  · exact Or.inr (Or.inr (Or.inl rfl))
  · exact Or.inr (Or.inr (Or.inr rfl))
  · exact Or.inl rfl

/-- The non-escape branch of the assembler, fully evaluated. -/
theorem tts_full_data (lang text bt : String)
    (h : occursIn spk text.data = false) :
    (text_to_ssml_with_emotion lang text bt).data =
      "<speak xml:lang=\"".data ++ (langCode lang).data ++ "\">\n  ".data ++
        joinWith ("<break time=\"".data ++ bt.data ++ "\"/>".data)
          ((sentencePieces (stripL text.data)).map (processSentence lang)) ++
        "\n</speak>".data := by
  unfold text_to_ssml_with_emotion
  rw [h]
  rfl

/-- The full pipeline output begins with `<speak xml:lang="` and, for a
break duration free of `<`, contains no literal `<speak>`. -/
theorem tts_pipeline_no_spk (lang text bt : String)
    (h : occursIn spk text.data = false)
    (hbt : ∀ c ∈ bt.data, c ≠ '<') :
    hasPfx "<speak xml:lang=\"".data
      (text_to_ssml_with_emotion lang text bt).data = true ∧
    occursIn spk (text_to_ssml_with_emotion lang text bt).data = false := by
  rw [tts_full_data lang text bt h]
  have hpieces : ∀ x ∈ (sentencePieces (stripL text.data)).map
      (processSentence lang),
      occursIn spk x = false ∧ x.getLast? = some '>' := by
    intro x hx
    rw [List.mem_map] at hx
    obtain ⟨sn, hsn, rfl⟩ := hx
    have hsn0 : occursIn spk sn = false := by
      cases hc : occursIn spk sn
      · rfl
      · exfalso
        have hpull := occursIn_stripL text.data
          (sentencePieces_no_spk (stripL text.data) sn hsn hc)
        rw [h] at hpull
        exact Bool.noConfusion hpull
    exact ⟨processSentence_no_spk lang sn hsn0, prosodyWrap_last _ _⟩
  have hbody := joinWith_pull ("<break time=\"".data ++ bt.data ++ "\"/>".data)
    (sep_no_spk bt.data hbt) (sep_last bt.data)
    ((sentencePieces (stripL text.data)).map (processSentence lang)) hpieces
  have hhdr : occursIn spk
      (("<speak xml:lang=\"".data ++ (langCode lang).data) ++
        "\">\n  ".data) = false := by
    rcases langCode_cases lang with hc | hc | hc | hc <;> rw [hc] <;> decide
  have hhdrl : (("<speak xml:lang=\"".data ++ (langCode lang).data) ++
      "\">\n  ".data).getLast? = some ' ' := by
    rw [getLast?_append_right
      ("<speak xml:lang=\"".data ++ (langCode lang).data) "\">\n  ".data
      (by decide)]
    decide
  constructor
  · have hassoc : "<speak xml:lang=\"".data ++ (langCode lang).data ++
        "\">\n  ".data ++
        joinWith ("<break time=\"".data ++ bt.data ++ "\"/>".data)
          ((sentencePieces (stripL text.data)).map (processSentence lang)) ++
        "\n</speak>".data =
        "<speak xml:lang=\"".data ++ ((langCode lang).data ++
          ("\">\n  ".data ++
            (joinWith ("<break time=\"".data ++ bt.data ++ "\"/>".data)
              ((sentencePieces (stripL text.data)).map
                (processSentence lang)) ++
              "\n</speak>".data))) := by
      simp [List.append_assoc]
    rw [hassoc]
    exact hasPfx_self_append _ _
  · refine no_spk_append _ _ ?_ (by decide)
      (straddle_kill_head _ _ '\n' (by decide) (by decide))
    exact no_spk_append _ _ hhdr hbody
      (straddle_kill_last _ _ ' ' hhdrl (by decide))

/-! ## C10: the escape hatch keys on the literal `<speak>` only -/

/-- C10: the pre-formatted escape hatch fires exactly on the literal
seven-character substring `<speak>`.  An input containing it is returned
unchanged when it starts with `<speak>`, and otherwise surrounded by one
extra `<speak>...</speak>` pair.  An input without it is fully processed,
and — whenever the break duration contains no `<` — the resulting
full-pipeline output begins with `<speak xml:lang="` and contains no
literal `<speak>` anywhere, so feeding it back into the assembler
re-segments and re-processes it instead of passing it through. -/
theorem c10_escape_hatch_exact (lang text bt : String) :
    (occursIn spk text.data = true →
      text_to_ssml_with_emotion lang text bt =
        (if hasPfx spk text.data then text
         else "<speak>" ++ text ++ "</speak>")) ∧
    (occursIn spk text.data = false → (∀ c ∈ bt.data, c ≠ '<') →
      hasPfx "<speak xml:lang=\"".data
        (text_to_ssml_with_emotion lang text bt).data = true ∧
      occursIn spk (text_to_ssml_with_emotion lang text bt).data = false) := by
  constructor
  · intro h
    exact tts_escape lang text bt h
  · intro h hbt
    exact tts_pipeline_no_spk lang text bt h hbt

/-- Witness for C10 at concrete inputs: `"a<speak>b"` contains the literal
and is wrapped once more; `"Hello."` does not contain it, and its pipeline
output starts with `<speak xml:lang="` and never contains `<speak>`. -/
theorem c10_witness :
    (occursIn spk "a<speak>b".data = true ∧
      text_to_ssml_with_emotion "english" "a<speak>b" "350ms" =
        "<speak>" ++ "a<speak>b" ++ "</speak>") ∧
    (occursIn spk "Hello.".data = false ∧
      (∀ c ∈ "350ms".data, c ≠ '<') ∧
      hasPfx "<speak xml:lang=\"".data
        (text_to_ssml_with_emotion "english" "Hello." "350ms").data = true ∧
      occursIn spk
        (text_to_ssml_with_emotion "english" "Hello." "350ms").data = false) := by
  constructor
  · refine ⟨by decide, ?_⟩
    have h := (c10_escape_hatch_exact "english" "a<speak>b" "350ms").1
      (by decide)
    rw [h]
    decide
  · refine ⟨by decide, by decide, ?_⟩
    exact (c10_escape_hatch_exact "english" "Hello." "350ms").2
      (by decide) (by decide)

end SpeechService


















